import Mathlib

/-!
Verification development for the agent-council pipeline orchestration engine
(TypeScript sources: pipeline.ts, prompts.ts, agents.ts).

The TypeScript code is shallowly embedded over List Char / String:
JavaScript strings become Lean strings, the regular expressions used by the
source are implemented as deterministic scanners with the exact semantics of
the corresponding JS regexes (leftmost match, greedy / lazy quantifiers,
global scans resuming after the end of the previous match), JS number
arithmetic is modelled by exact rationals, and the asynchronous process
lifecycle is modelled as a state machine over explicit events.
-/

namespace Council

/-! ## Character classes (JS regex and String semantics) -/

/-- Whitespace set of the JS regex class backslash-s and of String.prototype.trim:
tab, LF, VT, FF, CR, space, NBSP, and the Unicode space separators. -/
def jsWS (c : Char) : Bool :=
  c == '\t' || c == '\n' || c == '\x0b' || c == '\x0c' || c == '\r' || c == ' ' ||
  c == ' ' || c == ' ' ||
  (0x2000 ≤ c.toNat && c.toNat ≤ 0x200A) ||
  c == ' ' || c == ' ' || c == ' ' || c == ' ' ||
  c == '　' || c == '﻿'

/-- Word characters of the JS regex class backslash-w: A-Z, a-z, 0-9 and underscore. -/
def isWordChar (c : Char) : Bool :=
  ('a' ≤ c && c ≤ 'z') || ('A' ≤ c && c ≤ 'Z') || ('0' ≤ c && c ≤ '9') || c == '_'

/-- ASCII decimal digits, the JS regex class backslash-d. -/
def isDigit (c : Char) : Bool := '0' ≤ c && c ≤ '9'

/-- ASCII upper-case letters, the JS regex class [A-Z]. -/
def isUpperAZ (c : Char) : Bool := 'A' ≤ c && c ≤ 'Z'

/-- Characters matched by the JS regex dot (everything except line terminators). -/
def isDotChar (c : Char) : Bool :=
  !(c == '\n' || c == '\r' || c == ' ' || c == ' ')

/-! ## Basic string helpers on List Char -/

/-- JS String.prototype.trim on a character list. -/
def jsTrimL (l : List Char) : List Char :=
  ((l.dropWhile jsWS).reverse.dropWhile jsWS).reverse

/-- JS String.prototype.trim. -/
def jsTrim (s : String) : String := String.mk (jsTrimL s.data)

/-- JS String.prototype.includes: does pat occur as a contiguous substring? -/
def hasInfix (pat : List Char) : List Char → Bool
  | [] => pat.isEmpty
  | s@(_ :: t) => pat.isPrefixOf s || hasInfix pat t

/-- Split at the first occurrence of pat: returns the part before the
occurrence and the part after it (the JS indexOf / split building block). -/
def splitFirst (pat : List Char) : List Char → Option (List Char × List Char)
  | [] => if pat.isEmpty then some ([], []) else none
  | s@(c :: t) =>
    if pat.isPrefixOf s then some ([], s.drop pat.length)
    else (splitFirst pat t).map (fun p => (c :: p.1, p.2))

/-- The second element of the JS split(pat) array: the segment of s strictly
between the first occurrence of pat and the following occurrence (or the end
of s when pat occurs only once); empty when pat does not occur. -/
def splitSecondSeg (pat s : List Char) : List Char :=
  match splitFirst pat s with
  | none => []
  | some (_, rest) =>
    match splitFirst pat rest with
    | none => rest
    | some (pre, _) => pre

/-! ## Ranking parser (prompts.ts, parseRankingFromText)

The source uses three regexes: the global scans for the numbered pattern
(digits, dot, optional whitespace, a label) and for a bare label, plus a
non-global first-match of a bare label. A label is literally
"Response " followed by one upper-case letter. -/

/-- Regex "Response [A-Z]" anchored at the head of s: on success returns the
matched text (always 10 characters) and the remaining suffix. -/
def bareAt (s : List Char) : Option (List Char × List Char) :=
  if "Response ".data.isPrefixOf s then
    match s.drop 9 with
    | c :: t => if isUpperAZ c then some ("Response ".data ++ [c], t) else none
    | [] => none
  else none

theorem bareAt_length {s m rest : List Char} (h : bareAt s = some (m, rest)) :
    rest.length < s.length := by
  unfold bareAt at h
  split at h
  · cases hd : s.drop 9 with
    | nil => rw [hd] at h; exact absurd h (by simp)
    | cons c t =>
      rw [hd] at h
      by_cases hu : isUpperAZ c
      · simp only [hu, if_true, Option.some.injEq, Prod.mk.injEq] at h
        obtain ⟨-, hrest⟩ := h
        subst hrest
        have h1 : (s.drop 9).length = s.length - 9 := by simp
        rw [hd] at h1
        simp only [List.length_cons] at h1
        omega
      · simp [hu] at h
  · exact absurd h (by simp)

/-- Global scan of the regex "Response [A-Z]": leftmost non-overlapping
matches, resuming after the end of each match (JS lastIndex semantics). -/
def bareMatches : List Char → List (List Char)
  | [] => []
  | c :: t =>
    match h : bareAt (c :: t) with
    | some (m, rest) => m :: bareMatches rest
    | none => bareMatches t
termination_by s => s.length
decreasing_by
  · exact bareAt_length h
  · simp

/-- Non-global first match of "Response [A-Z]" (the JS match without the g
flag used on each numbered item). -/
def bareFirst : List Char → Option (List Char)
  | [] => none
  | s@(_ :: t) =>
    match bareAt s with
    | some (m, _) => some m
    | none => bareFirst t

/-- One attempt of the numbered-item regex (digits, dot, optional whitespace,
then a bare label) anchored at the head of s. All quantifiers are forced:
the digit run and the whitespace run are maximal and no backtracking can
succeed otherwise. Returns (full matched text, label, remaining suffix). -/
def numberedAt (s : List Char) : Option (List Char × List Char × List Char) :=
  if (s.takeWhile isDigit).isEmpty then none
  else
    match s.drop (s.takeWhile isDigit).length with
    | '.' :: r1 =>
      match bareAt (r1.drop (r1.takeWhile jsWS).length) with
      | some (lab, rest) =>
        some (s.takeWhile isDigit ++ '.' :: (r1.takeWhile jsWS ++ lab), lab, rest)
      | none => none
    | _ => none

theorem numberedAt_length {s m lab rest : List Char}
    (h : numberedAt s = some (m, lab, rest)) : rest.length < s.length := by
  unfold numberedAt at h
  split at h
  · exact absurd h (by simp)
  · split at h
    · rename_i r1 hdrop
      split at h
      · rename_i lab' rest' hb
        simp only [Option.some.injEq, Prod.mk.injEq] at h
        obtain ⟨-, -, hrest⟩ := h
        subst hrest
        have h1 : rest'.length < (r1.drop (r1.takeWhile jsWS).length).length :=
          bareAt_length hb
        have h2 : (r1.drop (r1.takeWhile jsWS).length).length ≤ r1.length := by
          simp
        have h3 : (s.drop (s.takeWhile isDigit).length).length ≤ s.length := by
          simp
        rw [hdrop] at h3
        simp only [List.length_cons] at h3
        omega
      · exact absurd h (by simp)
    · exact absurd h (by simp)

/-- Global scan of the numbered-item regex. Each element is the pair of the
full matched text and the label inside it (the label is determined by the
scan; the source re-extracts it with a second regex, see
parseRankingFromText). -/
def numberedMatches : List Char → List (List Char × List Char)
  | [] => []
  | c :: t =>
    match h : numberedAt (c :: t) with
    | some (m, lab, rest) => (m, lab) :: numberedMatches rest
    | none => numberedMatches t
termination_by s => s.length
decreasing_by
  · exact numberedAt_length h
  · simp

/-- Marker line looked up by parseRankingFromText. -/
def markerL : List Char := "FINAL RANKING:".data

/-- Shallow embedding of parseRankingFromText (prompts.ts). The destructured
JS split assigns to tail the segment between the first and second marker
occurrences; a null JS match result is the empty list here, and the early
returns of the source become nested alternatives. -/
def parseRankingL (t : List Char) : List (List Char) :=
  if hasInfix markerL t then
    let tail := splitSecondSeg markerL t
    let numbered := numberedMatches tail
    if numbered.isEmpty then
      match bareMatches tail with
      | [] => bareMatches t
      | ms => ms
    else
      (numbered.map (fun p => (bareFirst p.1).getD [])).filter (fun m => !m.isEmpty)
  else bareMatches t

/-- String-level entry point of the ranking parser. -/
def parseRankingFromText (s : String) : List String :=
  (parseRankingL s.data).map String.mk

/-! ### C2 spec-side descriptions of the ranking parser -/

/-- Everything after the first occurrence of pat (empty when absent). -/
def tailAfterFirst (pat s : List Char) : List Char :=
  match splitFirst pat s with
  | some p => p.2
  | none => []

/-- The ranking parser as claim C2 words it: with the marker present, the
labels of the numbered-list matches after the marker; if none, the bare
label occurrences after the marker (possibly none); only with the marker
absent does it fall back to bare occurrences anywhere in the text. -/
def parseRankingClaimSpec (s : String) : List String :=
  let t := s.data
  if hasInfix markerL t then
    let seg := tailAfterFirst markerL t
    if (numberedMatches seg).isEmpty then (bareMatches seg).map String.mk
    else ((numberedMatches seg).map (fun p => p.2)).map String.mk
  else (bareMatches t).map String.mk

/-- The ranking parser as the source actually behaves (the amended claim):
the segment examined after the marker is the part strictly between the
first and second marker occurrences, and when it contains no numbered and
no bare label at all, the parser falls back to bare label occurrences
anywhere in the whole text, not to the empty list. -/
def parseRankingAmendedSpec (s : String) : List String :=
  let t := s.data
  if hasInfix markerL t then
    let seg := splitSecondSeg markerL t
    if (numberedMatches seg).isEmpty then
      match bareMatches seg with
      | [] => (bareMatches t).map String.mk
      | ms => ms.map String.mk
    else ((numberedMatches seg).map (fun p => p.2)).map String.mk
  else (bareMatches t).map String.mk

/-! ### The label inside each numbered match -/

theorem bareAt_cons_ne {c : Char} {t : List Char} (hc : c ≠ 'R') :
    bareAt (c :: t) = none := by
  unfold bareAt
  rw [if_neg]
  intro hpre
  have := List.isPrefixOf_iff_prefix.mp hpre
  obtain ⟨u, hu⟩ := this
  have : 'R' = c := by
    have := congrArg (fun l => l.head?) hu
    simpa using this
  exact hc this.symm

theorem bareFirst_append_front {pre s : List Char}
    (h : ∀ ch ∈ pre, ch ≠ 'R') : bareFirst (pre ++ s) = bareFirst s := by
  induction pre with
  | nil => rfl
  | cons c p ih =>
    have hc : c ≠ 'R' := h c (List.mem_cons_self _ _)
    rw [List.cons_append, bareFirst, bareAt_cons_ne hc]
    exact ih (fun ch hch => h ch (List.mem_cons_of_mem _ hch))

theorem bareAt_self {c : Char} (hc : isUpperAZ c = true) :
    bareAt ("Response ".data ++ [c]) = some ("Response ".data ++ [c], []) := by
  unfold bareAt
  rw [if_pos]
  · rw [show ("Response ".data ++ [c]).drop 9 = [c] from rfl]
    simp [hc]
  · exact List.isPrefixOf_iff_prefix.mpr ⟨[c], rfl⟩

theorem numberedAt_label {s m lab rest : List Char}
    (h : numberedAt s = some (m, lab, rest)) :
    bareFirst m = some lab ∧ lab ≠ [] := by
  unfold numberedAt at h
  split at h
  · exact absurd h (by simp)
  · split at h
    · rename_i r1 hdrop
      split at h
      · rename_i lab' rest' hb
        simp only [Option.some.injEq, Prod.mk.injEq] at h
        obtain ⟨hm, hlab, hrest⟩ := h
        -- dissect the bare match
        unfold bareAt at hb
        split at hb
        · rename_i hpre
          set r2 := r1.drop (r1.takeWhile jsWS).length with hr2
          cases hd2 : r2.drop 9 with
          | nil => rw [hd2] at hb; exact absurd hb (by simp)
          | cons c t2 =>
            rw [hd2] at hb
            by_cases hu : isUpperAZ c
            · simp only [hu, if_true, Option.some.injEq, Prod.mk.injEq] at hb
              obtain ⟨hlab', -⟩ := hb
              subst hlab'
              subst hlab
              subst hm
              constructor
              · have hds : ∀ ch ∈ s.takeWhile isDigit, ch ≠ 'R' := by
                  intro ch hch
                  have := List.mem_takeWhile_imp hch
                  intro hR
                  rw [hR] at this
                  exact absurd this (by decide)
                have hws : ∀ ch ∈ '.' :: r1.takeWhile jsWS, ch ≠ 'R' := by
                  intro ch hch
                  rcases List.mem_cons.mp hch with rfl | hch'
                  · decide
                  · have := List.mem_takeWhile_imp hch'
                    intro hR
                    rw [hR] at this
                    exact absurd this (by decide)
                rw [show s.takeWhile isDigit ++ '.' :: (r1.takeWhile jsWS ++
                    ("Response ".data ++ [c])) = (s.takeWhile isDigit ++
                    ('.' :: r1.takeWhile jsWS)) ++ ("Response ".data ++ [c]) by simp,
                  bareFirst_append_front]
                · rw [show "Response ".data ++ [c] =
                      'R' :: ("esponse ".data ++ [c]) from rfl, bareFirst,
                    show 'R' :: ("esponse ".data ++ [c]) =
                      "Response ".data ++ [c] from rfl, bareAt_self hu]
                · intro ch hch
                  rcases List.mem_append.mp hch with hch' | hch'
                  · exact hds ch hch'
                  · exact hws ch hch'
              · simp
            · simp [hu] at hb
        · exact absurd hb (by simp)
      · exact absurd h (by simp)
    · exact absurd h (by simp)

theorem numberedMatches_label :
    ∀ (t : List Char) (p : List Char × List Char), p ∈ numberedMatches t →
      bareFirst p.1 = some p.2 ∧ p.2 ≠ [] := by
  intro t
  induction t using numberedMatches.induct with
  | case1 => intro p hp; simp [numberedMatches] at hp
  | case2 c t m lab rest h ih =>
    intro p hp
    rw [numberedMatches, h] at hp
    rcases List.mem_cons.mp hp with rfl | hp'
    · exact numberedAt_label h
    · exact ih p hp'
  | case3 c t h ih =>
    intro p hp
    rw [numberedMatches, h] at hp
    exact ih p hp

theorem labels_map_filter {L : List (List Char × List Char)}
    (h : ∀ p ∈ L, bareFirst p.1 = some p.2 ∧ p.2 ≠ []) :
    (L.map (fun p => (bareFirst p.1).getD [])).filter (fun m => !m.isEmpty) =
      L.map (fun p => p.2) := by
  induction L with
  | nil => rfl
  | cons p L ih =>
    obtain ⟨h1, h2⟩ := h p (List.mem_cons_self _ _)
    rw [List.map_cons, List.map_cons, List.filter_cons]
    rw [h1]
    simp only [Option.getD_some]
    rw [if_pos (by simpa using h2)]
    rw [ih (fun q hq => h q (List.mem_cons_of_mem _ hq))]

/-! ## C2: the ranking parser, corrected -/

/-- Counterexample to C2 as stated: on a text whose only label occurrences
precede the marker and with nothing at all after the marker, the source
falls back to bare occurrences anywhere in the whole text and returns the
label, whereas the claim's description returns the empty list. -/
theorem C2_claim_counterexample :
    parseRankingFromText "Response A FINAL RANKING:" = ["Response A"] ∧
    parseRankingClaimSpec "Response A FINAL RANKING:" = [] := by
  constructor
  · simp +decide [parseRankingFromText, parseRankingL, hasInfix, splitSecondSeg,
      splitFirst, markerL, numberedMatches, numberedAt, bareMatches, bareAt,
      bareFirst]
  · simp +decide [parseRankingClaimSpec, hasInfix, tailAfterFirst, splitFirst,
      markerL, numberedMatches, numberedAt, bareMatches, bareAt]

/-- C2 amended: parseRankingFromText never throws (it is a total function)
and behaves as follows: with the marker present it examines the segment
between the first and second marker occurrences; the labels of the
numbered-list matches there win; otherwise the bare label occurrences
there; if the segment has neither, and likewise when the marker is absent,
it extracts the bare label occurrences anywhere in the whole text; if
nothing matches anywhere the result is empty. -/
theorem C2_parseRanking_amended (s : String) :
    parseRankingFromText s = parseRankingAmendedSpec s := by
  rw [parseRankingFromText, parseRankingL, parseRankingAmendedSpec]
  by_cases hm : hasInfix markerL s.data
  · simp only [hm, if_true]
    by_cases hn : (numberedMatches (splitSecondSeg markerL s.data)).isEmpty
    · simp only [hn, if_true]
      cases hb : bareMatches (splitSecondSeg markerL s.data) with
      | nil => simp
      | cons m ms => simp
    · simp only [hn, if_false]
      rw [labels_map_filter (numberedMatches_label _)]
      simp
  · simp [hm]

end Council

namespace Council

/-! ## Sectioned output parser (prompts.ts, parseSectionedOutput)

Wire format: a section is delimited by the literal text
===SECTION:name=== ... ===END:name=== with name made of word characters.
The source scans with two global regexes: the full-section pattern (lazy
content, backreference on the name) and the bare start-delimiter pattern. -/

/-- Parsed section record (types.ts, ParsedSection). -/
structure ParsedSection where
  name : String
  content : String
  complete : Bool
deriving DecidableEq, Repr

/-- The literal prefix of a start delimiter. -/
def startLit : List Char := "===SECTION:".data

/-- End delimiter for a given section name. -/
def endDelimL (name : List Char) : List Char := "===END:".data ++ name ++ "===".data

/-- Start delimiter for a given section name. -/
def startDelimL (name : List Char) : List Char := startLit ++ name ++ "===".data

/-- Match the part of a start delimiter after its literal prefix:
a nonempty greedy word run followed by the literal ===; returns the name and
the suffix after the full delimiter. Maximal munch is faithful to the JS
regex: a shorter word run would have to be followed by a word character,
which can never begin the literal ===. -/
def matchWordThenEq (r : List Char) : Option (List Char × List Char) :=
  if (r.takeWhile isWordChar).isEmpty then none
  else if "===".data.isPrefixOf (r.drop (r.takeWhile isWordChar).length) then
    some (r.takeWhile isWordChar, (r.drop (r.takeWhile isWordChar).length).drop 3)
  else none

/-- One attempt of the start-delimiter regex anchored at the head of s. -/
def matchStartAt (s : List Char) : Option (List Char × List Char) :=
  if startLit.isPrefixOf s then matchWordThenEq (s.drop startLit.length) else none

theorem matchWordThenEq_length {r n rest : List Char}
    (h : matchWordThenEq r = some (n, rest)) : rest.length < r.length := by
  unfold matchWordThenEq at h
  split at h
  · exact absurd h (by simp)
  · rename_i hne
    split at h
    · simp only [Option.some.injEq, Prod.mk.injEq] at h
      obtain ⟨-, hrest⟩ := h
      subst hrest
      have hk : 1 ≤ (r.takeWhile isWordChar).length := by
        rcases hw : r.takeWhile isWordChar with - | ⟨a, l⟩
        · rw [hw] at hne; simp at hne
        · simp [hw]
      have hk2 : (r.takeWhile isWordChar).length ≤ r.length :=
        (List.takeWhile_prefix _).length_le
      simp only [List.length_drop]
      omega
    · exact absurd h (by simp)

theorem matchStartAt_length {s n rest : List Char}
    (h : matchStartAt s = some (n, rest)) : rest.length < s.length := by
  unfold matchStartAt at h
  split at h
  · have h1 := matchWordThenEq_length h
    have h2 : (s.drop startLit.length).length ≤ s.length := by simp
    omega
  · exact absurd h (by simp)

/-- The list form of splitFirst, recording that s splits as
pre ++ pat ++ post at the first occurrence of pat. -/
theorem splitFirst_eq {pat s pre post : List Char}
    (h : splitFirst pat s = some (pre, post)) : s = pre ++ pat ++ post := by
  induction s generalizing pre post with
  | nil =>
    unfold splitFirst at h
    split at h
    · rename_i hp
      simp only [Option.some.injEq, Prod.mk.injEq] at h
      obtain ⟨h1, h2⟩ := h
      subst h1; subst h2
      simp [List.isEmpty_iff.mp hp]
    · exact absurd h (by simp)
  | cons c t ih =>
    unfold splitFirst at h
    split at h
    · rename_i hp
      simp only [Option.some.injEq, Prod.mk.injEq] at h
      obtain ⟨h1, h2⟩ := h
      subst h1; subst h2
      have hp' := List.isPrefixOf_iff_prefix.mp hp
      obtain ⟨post', hpost⟩ := hp'
      simp only [List.nil_append]
      rw [← hpost, List.drop_left]
    · cases hrec : splitFirst pat t with
      | none => rw [hrec] at h; exact absurd h (by simp)
      | some p =>
        obtain ⟨pre', post'⟩ := p
        rw [hrec] at h
        simp at h
        obtain ⟨h1, h2⟩ := h
        have ht := ih hrec
        rw [← h1, ← h2, ht]
        rfl

theorem splitFirst_length_lt {pat s pre post : List Char} (hpat : pat ≠ [])
    (h : splitFirst pat s = some (pre, post)) : post.length < s.length := by
  have := congrArg List.length (splitFirst_eq h)
  simp only [List.length_append] at this
  have : 1 ≤ pat.length := by
    cases pat with
    | nil => exact absurd rfl hpat
    | cons a l => simp
  have := congrArg List.length (splitFirst_eq h)
  simp only [List.length_append] at this
  omega

/-- Global scan of the full-section regex: at each position, try to match a
start delimiter and then find the earliest matching end delimiter (the lazy
content quantifier); on success, record (name, raw content) and resume after
the end delimiter, otherwise advance one position. -/
def scanComplete : List Char → List (List Char × List Char)
  | [] => []
  | c :: t =>
    match hm : matchStartAt (c :: t) with
    | some (name, rest) =>
      match hf : splitFirst (endDelimL name) rest with
      | some (content, after) => (name, content) :: scanComplete after
      | none => scanComplete t
    | none => scanComplete t
termination_by s => s.length
decreasing_by
  · have h1 := matchStartAt_length hm
    have h2 : after.length < rest.length := by
      apply splitFirst_length_lt ?_ hf
      simp [endDelimL]
    omega
  · simp
  · simp

/-- Global scan of the bare start-delimiter regex: record (name, suffix after
the delimiter) for every match, resuming after the matched delimiter. -/
def scanStarts : List Char → List (List Char × List Char)
  | [] => []
  | c :: t =>
    match hm : matchStartAt (c :: t) with
    | some (name, rest) => (name, rest) :: scanStarts rest
    | none => scanStarts t
termination_by s => s.length
decreasing_by
  · exact matchStartAt_length hm
  · simp

/-- Shallow embedding of parseSectionedOutput (prompts.ts): complete
sections first (trimmed content, complete = true), then every unterminated
start delimiter whose name was not seen as a complete section, with content
the trimmed suffix up to the end of the text. -/
def parseSectionedOutput (output : String) : List ParsedSection :=
  let completes := scanComplete output.data
  let seen := completes.map (fun p => p.1)
  completes.map (fun p => ParsedSection.mk (String.mk p.1) (String.mk (jsTrimL p.2)) true) ++
    ((scanStarts output.data).filter (fun p => !seen.contains p.1)).map
      (fun p => ParsedSection.mk (String.mk p.1) (String.mk (jsTrimL p.2)) false)

/-- Rendering of one complete section used by combinePassOutputs
(pipeline.ts): the delimiter template with a newline on each side of the
content. -/
def sectionBlock (p : ParsedSection) : String :=
  "===SECTION:" ++ p.name ++ "===\n" ++ p.content ++ "\n===END:" ++ p.name ++ "==="

/-- Shallow embedding of combinePassOutputs (pipeline.ts): all complete
sections of pass 1 then of pass 2, each in delimiter form, joined by blank
lines. The raw pass outputs are accepted and ignored exactly as in the
source. -/
def combinePassOutputs (pass1Raw pass2Raw : String)
    (pass1Sections pass2Sections : List ParsedSection) : String :=
  String.intercalate "\n\n"
    ((pass1Sections.filter (fun s => s.complete)).map sectionBlock ++
     (pass2Sections.filter (fun s => s.complete)).map sectionBlock)

/-! ## C10: incomplete sections versus complete sections -/

/-- Counterexample to C10 as stated: two unterminated openers with the same
name (and no complete section of that name) each produce their own
complete=false entry, so more than one incomplete entry per section name
can be returned. -/
theorem C10_claim_counterexample :
    parseSectionedOutput "===SECTION:a===x===SECTION:a===y" =
      [⟨"a", "x===SECTION:a===y", false⟩, ⟨"a", "y", false⟩] ∧
    ((parseSectionedOutput "===SECTION:a===x===SECTION:a===y").filter
        (fun e => !e.complete && e.name == "a")).length = 2 := by
  have h : parseSectionedOutput "===SECTION:a===x===SECTION:a===y" =
      [⟨"a", "x===SECTION:a===y", false⟩, ⟨"a", "y", false⟩] := by
    simp +decide [parseSectionedOutput, scanComplete, scanStarts, matchStartAt,
      matchWordThenEq, splitFirst, startLit, endDelimL, jsTrimL]
  exact ⟨h, by rw [h]; rfl⟩

/-- C10 amended: parseSectionedOutput reports an unterminated opening
delimiter as a complete=false section only if no complete section with the
same name was found anywhere in the text (such openers are silently
dropped); but distinct unterminated openers sharing a name each produce
their own incomplete entry, so several incomplete entries per name can
occur. -/
theorem C10_incomplete_only_if_no_complete (output : String) (n : String)
    (h : ∃ e ∈ parseSectionedOutput output, e.complete = false ∧ e.name = n) :
    ¬ ∃ e ∈ parseSectionedOutput output, e.complete = true ∧ e.name = n := by
  rintro ⟨e2, he2, hc2, hn2⟩
  obtain ⟨e1, he1, hc1, hn1⟩ := h
  simp only [parseSectionedOutput, List.mem_append, List.mem_map,
    List.mem_filter] at he1 he2
  rcases he1 with ⟨p, hp, rfl⟩ | ⟨p, hp, rfl⟩
  · exact absurd hc1 (by simp)
  · rcases he2 with ⟨q, hq, rfl⟩ | ⟨q, hq, rfl⟩
    · obtain ⟨hpmem, hpfilter⟩ := hp
      have hpq : p.1 = q.1 := by
        have := hn1.trans hn2.symm
        exact congrArg String.data this
      have hqseen : q.1 ∈ (scanComplete output.data).map (fun p => p.1) :=
        List.mem_map.mpr ⟨q, hq, rfl⟩
      rw [← hpq] at hqseen
      have hany : ((scanComplete output.data).map (fun p => p.1)).any
          (fun x => p.1 == x) = true :=
        List.any_eq_true.mpr ⟨p.1, hqseen, by simp⟩
      rw [List.contains_eq_any_beq, hany] at hpfilter
      exact absurd hpfilter (by simp)
    · exact absurd hc2 (by simp)

/-- Concrete instance of amended C10: a lone unterminated section named b
is reported incomplete, and no complete section named b exists. -/
theorem C10_incomplete_only_if_no_complete_witness :
    ¬ ∃ e ∈ parseSectionedOutput "===SECTION:b===x", e.complete = true ∧ e.name = "b" := by
  apply C10_incomplete_only_if_no_complete
  refine ⟨⟨"b", "x", false⟩, ?_, rfl, rfl⟩
  simp +decide [parseSectionedOutput, scanComplete, scanStarts, matchStartAt,
    matchWordThenEq, splitFirst, startLit, endDelimL, jsTrimL]

/-! ## C3/C8: rendered sectioned texts and the parser

A sectioned text is rendered from a list of intended sections the way
combinePassOutputs renders complete sections: delimiter blocks joined by
blank lines, a truncated section being an opening delimiter and content with
no end delimiter. The occurrence analysis below shows that the two regex
scans of parseSectionedOutput recover exactly the rendered sections. -/

/-- A JS regex word-run section name: nonempty, word characters only. -/
def wordNameL (n : List Char) : Prop :=
  n ≠ [] ∧ ∀ c ∈ n, isWordChar c = true

/-- A section content free of delimiter fragments: neither "===SECTION:"
nor "===END:" occurs in it (the String.includes form used throughout). -/
def noDelimsL (c : List Char) : Prop :=
  hasInfix startLit c = false ∧ hasInfix "===END:".data c = false

instance wordNameL.instDecidable (n : List Char) : Decidable (wordNameL n) :=
  decidable_of_iff (n ≠ [] ∧ ∀ c ∈ n, isWordChar c = true) Iff.rfl

instance noDelimsL.instDecidable (c : List Char) : Decidable (noDelimsL c) :=
  decidable_of_iff
    (hasInfix startLit c = false ∧ hasInfix "===END:".data c = false) Iff.rfl

theorem hasInfix_iff {pat : List Char} : ∀ {s : List Char},
    hasInfix pat s = true ↔ pat <:+: s := by
  intro s
  induction s with
  | nil => simp [hasInfix, List.isEmpty_iff]
  | cons c t ih =>
    simp only [hasInfix, Bool.or_eq_true, List.isPrefixOf_iff_prefix, ih]
    exact (List.infix_cons_iff).symm

theorem not_infix_of_hasInfix_false {pat s : List Char}
    (h : hasInfix pat s = false) : ¬ pat <:+: s := by
  intro hc
  rw [← hasInfix_iff] at hc
  rw [h] at hc
  exact absurd hc (by simp)

/-- A pattern containing no newline, occurring as a prefix of a text with a
newline, stays before the newline. -/
theorem prefix_append_nl {pat X Y : List Char} (hnl : '\n' ∉ pat)
    (h : pat <+: X ++ '\n' :: Y) : pat <+: X := by
  induction X generalizing pat with
  | nil =>
    cases pat with
    | nil => exact List.nil_prefix
    | cons p pt =>
      rw [List.nil_append, List.cons_prefix_cons] at h
      obtain ⟨hp, -⟩ := h
      subst hp
      exact absurd (List.mem_cons_self _ _) hnl
  | cons x X ih =>
    cases pat with
    | nil => exact List.nil_prefix
    | cons p pt =>
      rw [List.cons_append, List.cons_prefix_cons] at h
      obtain ⟨hp, hrest⟩ := h
      subst hp
      have := ih (fun hm => hnl (List.mem_cons_of_mem _ hm)) hrest
      exact List.cons_prefix_cons.mpr ⟨rfl, this⟩

/-- An occurrence of a newline-free pattern in X ++ '\n' :: Y lies entirely
in X or entirely in Y. -/
theorem infix_append_nl {pat X Y : List Char} (hnl : '\n' ∉ pat)
    (h : pat <:+: X ++ '\n' :: Y) : pat <:+: X ∨ pat <:+: Y := by
  induction X with
  | nil =>
    rw [List.nil_append, List.infix_cons_iff] at h
    rcases h with h | h
    · cases pat with
      | nil => exact Or.inl (by simp)
      | cons p pt =>
        rw [List.cons_prefix_cons] at h
        obtain ⟨hp, -⟩ := h
        subst hp
        exact absurd (List.mem_cons_self _ _) hnl
    · exact Or.inr h
  | cons x X ih =>
    rw [List.cons_append, List.infix_cons_iff] at h
    rcases h with h | h
    · have h2 : pat <+: (x :: X) ++ '\n' :: Y := by rw [List.cons_append]; exact h
      exact Or.inl (prefix_append_nl hnl h2).isInfix
    · rcases ih h with h1 | h1
      · exact Or.inl (List.infix_cons h1)
      · exact Or.inr h1

theorem not_infix_nil_of_ne {pat : List Char} (hne : pat ≠ []) :
    ¬ pat <:+: ([] : List Char) := fun h => hne (List.infix_nil.mp h)

theorem infix_nl_cons {pat Y : List Char} (hnl : '\n' ∉ pat) (hne : pat ≠ [])
    (h : pat <:+: '\n' :: Y) : pat <:+: Y := by
  have h2 : pat <:+: ([] : List Char) ++ '\n' :: Y := by rwa [List.nil_append]
  rcases infix_append_nl hnl h2 with h1 | h1
  · exact absurd h1 (not_infix_nil_of_ne hne)
  · exact h1

theorem not_infix_cons_nl {pat X : List Char} (hnl : '\n' ∉ pat) (hne : pat ≠ [])
    (hX : ¬ pat <:+: X) : ¬ pat <:+: '\n' :: X :=
  fun h => hX (infix_nl_cons hnl hne h)

theorem not_infix_append_nl {pat X Y : List Char} (hnl : '\n' ∉ pat)
    (hX : ¬ pat <:+: X) (hY : ¬ pat <:+: Y) : ¬ pat <:+: X ++ '\n' :: Y :=
  fun h => (infix_append_nl hnl h).elim hX hY

/-- A list with a unique separator occurrence decomposes uniquely at it. -/
theorem sep_decomp_unique {x : Char} {A B U V : List Char} (hA : x ∉ A) (hB : x ∉ B)
    (h : A ++ x :: B = U ++ x :: V) : U = A ∧ V = B := by
  induction A generalizing U with
  | nil =>
    cases U with
    | nil =>
      rw [List.nil_append, List.nil_append] at h
      injection h with h1 h2
      exact ⟨rfl, h2.symm⟩
    | cons u U =>
      rw [List.nil_append, List.cons_append] at h
      injection h with h1 h2
      rw [h2] at hB
      exact absurd (by simp) hB
  | cons a A ih =>
    cases U with
    | nil =>
      rw [List.cons_append, List.nil_append] at h
      injection h with h1 h2
      subst h1
      exact absurd (List.mem_cons_self _ _) hA
    | cons u U =>
      rw [List.cons_append, List.cons_append] at h
      injection h with h1 h2
      obtain ⟨hU, hV⟩ := ih (fun hm => hA (List.mem_cons_of_mem _ hm)) h2
      subst h1
      exact ⟨by rw [hU], hV⟩

/-- A pattern with a separator, occurring inside a text with a unique
separator, aligns its separator with the text's. -/
theorem sep_align {x : Char} {PA PB A B : List Char} (hA : x ∉ A) (hB : x ∉ B)
    (h : (PA ++ x :: PB) <:+: (A ++ x :: B)) : PA <:+ A ∧ PB <+: B := by
  obtain ⟨s, t, hst⟩ := h
  have hst2 : A ++ x :: B = (s ++ PA) ++ x :: (PB ++ t) := by
    rw [← hst]
    simp [List.append_assoc]
  obtain ⟨hU, hV⟩ := sep_decomp_unique hA hB hst2
  exact ⟨⟨s, hU⟩, ⟨t, hV⟩⟩

/-! ### Delimiter occurrence analysis

Both delimiter patterns contain exactly one colon, and word-run names are
colon-free, so an occurrence of one delimiter inside another must align the
colons; length or content then rules the occurrence out (or forces name
equality for two end delimiters). -/

theorem startLit_colon : startLit = "===SECTION".data ++ ':' :: [] := by decide

theorem endDelimL_colon (n : List Char) :
    endDelimL n = "===END".data ++ ':' :: (n ++ "===".data) := by
  show "===END:".data ++ n ++ "===".data = _
  rw [show "===END:".data = "===END".data ++ [':'] from by decide]
  simp [List.append_assoc]

theorem startDelimL_colon (n : List Char) :
    startDelimL n = "===SECTION".data ++ ':' :: (n ++ "===".data) := by
  show startLit ++ n ++ "===".data = _
  rw [show startLit = "===SECTION".data ++ [':'] from by decide]
  simp [List.append_assoc]

theorem word_not_colon {n : List Char} (hw : ∀ c ∈ n, isWordChar c = true) :
    ':' ∉ n := fun hm => absurd (hw _ hm) (by decide)

theorem word_not_nl {n : List Char} (hw : ∀ c ∈ n, isWordChar c = true) :
    '\n' ∉ n := fun hm => absurd (hw _ hm) (by decide)

theorem colon_not_in_wordEq {n : List Char} (hw : ∀ c ∈ n, isWordChar c = true) :
    ':' ∉ n ++ "===".data := by
  intro hm
  rcases List.mem_append.mp hm with hm | hm
  · exact word_not_colon hw hm
  · exact absurd hm (by decide)

theorem nl_not_in_endDelim {n : List Char} (hw : ∀ c ∈ n, isWordChar c = true) :
    '\n' ∉ endDelimL n := by
  intro hm
  rw [endDelimL_colon] at hm
  rcases List.mem_append.mp hm with hm | hm
  · exact absurd hm (by decide)
  · rcases List.mem_cons.mp hm with hm | hm
    · exact absurd hm (by decide)
    · rcases List.mem_append.mp hm with hm | hm
      · exact word_not_nl hw hm
      · exact absurd hm (by decide)

theorem endDelimL_ne_nil (n : List Char) : endDelimL n ≠ [] := by
  simp [endDelimL]

/-- The start delimiter literal never occurs inside an end delimiter. -/
theorem not_startLit_in_endDelim {n : List Char}
    (hw : ∀ c ∈ n, isWordChar c = true) : ¬ startLit <:+: endDelimL n := by
  intro h
  rw [startLit_colon, endDelimL_colon] at h
  obtain ⟨hsuf, -⟩ := sep_align (by decide) (colon_not_in_wordEq hw) h
  exact absurd hsuf.length_le (by decide)

/-- No end delimiter occurs inside a start delimiter. -/
theorem not_endDelim_in_startDelim {t₀ n : List Char}
    (hw : ∀ c ∈ n, isWordChar c = true) : ¬ endDelimL t₀ <:+: startDelimL n := by
  intro h
  rw [endDelimL_colon, startDelimL_colon] at h
  obtain ⟨hsuf, -⟩ := sep_align (by decide) (colon_not_in_wordEq hw) h
  exact absurd hsuf (by decide)

/-- The start delimiter literal never occurs in the tail of a start
delimiter (everything after its first character). -/
theorem not_startLit_in_startTail {n : List Char}
    (hw : ∀ c ∈ n, isWordChar c = true) :
    ¬ startLit <:+: "==SECTION:".data ++ n ++ "===".data := by
  intro h
  rw [startLit_colon] at h
  rw [show "==SECTION:".data = "==SECTION".data ++ [':'] from by decide] at h
  rw [List.append_assoc, List.append_assoc] at h
  rw [show ([':'] ++ (n ++ "===".data)) = ':' :: (n ++ "===".data) from rfl] at h
  obtain ⟨hsuf, -⟩ := sep_align (by decide) (colon_not_in_wordEq hw) h
  exact absurd hsuf.length_le (by decide)

/-- Two word-run names followed by the same literal and prefix-comparable
are equal. -/
theorem word_affix_eq : ∀ {t₀ n : List Char},
    (∀ c ∈ t₀, isWordChar c = true) → (∀ c ∈ n, isWordChar c = true) →
    t₀ ++ "===".data <+: n ++ "===".data → t₀ = n := by
  intro t₀
  induction t₀ with
  | nil =>
    intro n _ hwn h
    cases n with
    | nil => rfl
    | cons m n' =>
      rw [List.nil_append, List.cons_append, show ("===".data : List Char) = '=' :: "==".data from by decide,
        List.cons_prefix_cons] at h
      obtain ⟨hm, -⟩ := h
      have := hwn m (List.mem_cons_self _ _)
      rw [← hm] at this
      exact absurd this (by decide)
  | cons a t' ih =>
    intro n hwt hwn h
    cases n with
    | nil =>
      rw [List.cons_append, List.nil_append,
        show ("===".data : List Char) = '=' :: "==".data from by decide,
        List.cons_prefix_cons] at h
      obtain ⟨hm, -⟩ := h
      have := hwt a (List.mem_cons_self _ _)
      rw [hm] at this
      exact absurd this (by decide)
    | cons m n' =>
      rw [List.cons_append, List.cons_append, List.cons_prefix_cons] at h
      obtain ⟨hm, hrest⟩ := h
      subst hm
      rw [ih (fun c hc => hwt c (List.mem_cons_of_mem _ hc))
        (fun c hc => hwn c (List.mem_cons_of_mem _ hc)) hrest]

/-- An end delimiter occurring inside an end delimiter forces equal names. -/
theorem endDelim_in_endDelim_eq {t₀ n : List Char}
    (hwt : ∀ c ∈ t₀, isWordChar c = true) (hwn : ∀ c ∈ n, isWordChar c = true)
    (h : endDelimL t₀ <:+: endDelimL n) : t₀ = n := by
  rw [endDelimL_colon, endDelimL_colon] at h
  obtain ⟨-, hpre⟩ := sep_align (by decide) (colon_not_in_wordEq hwn) h
  exact word_affix_eq hwt hwn hpre

/-- An occurrence of a full end delimiter inside a text yields an occurrence
of the end-delimiter literal there. -/
theorem endLit_of_endDelim {t₀ s : List Char} (h : endDelimL t₀ <:+: s) :
    "===END:".data <:+: s := by
  refine List.IsInfix.trans ?_ h
  exact (List.prefix_append _ _).isInfix

/-- Likewise a full start delimiter contains the start literal. -/
theorem startLit_of_startDelim {n s : List Char} (h : startDelimL n <:+: s) :
    startLit <:+: s := by
  refine List.IsInfix.trans ?_ h
  exact (List.prefix_append _ _).isInfix

/-! ### Ruling out pattern occurrences position by position

An occurrence of pat starting inside a segment d of the text d ++ t either
lies entirely inside d, or spans the boundary: a nonempty proper prefix of
pat is a suffix of d and the rest of pat begins t. The scanning lemmas
below only need the per-position absence of matches, which this analysis
reduces to two segment-level facts. -/

theorem prefix_drop_cases {pat d t : List Char} {i : ℕ} (hi : i < d.length)
    (h : pat <+: (d.drop i ++ t)) :
    pat <:+: d ∨
      ∃ k, 0 < k ∧ k < pat.length ∧ pat.take k <:+ d ∧ pat.drop k <+: t := by
  have hd' : d.drop i <:+ d := List.drop_suffix i d
  have hd'len : 0 < (d.drop i).length := by
    rw [List.length_drop]
    omega
  by_cases hlen : pat.length ≤ (d.drop i).length
  · left
    have hp : pat <+: d.drop i :=
      List.prefix_of_prefix_length_le h (List.prefix_append _ _) hlen
    exact hp.isInfix.trans hd'.isInfix
  · right
    push_neg at hlen
    refine ⟨(d.drop i).length, hd'len, hlen, ?_, ?_⟩
    · have hp : d.drop i <+: pat :=
        List.prefix_of_prefix_length_le (List.prefix_append _ _) h (le_of_lt hlen)
      obtain ⟨r, hr⟩ := hp
      rw [← hr, List.take_left]
      exact hd'
    · have hp : d.drop i <+: pat :=
        List.prefix_of_prefix_length_le (List.prefix_append _ _) h (le_of_lt hlen)
      obtain ⟨r, hr⟩ := hp
      have hrdrop : pat.drop (d.drop i).length = r := by
        rw [← hr, List.drop_left]
      rw [hrdrop]
      have h2 : d.drop i ++ r <+: d.drop i ++ t := by rw [hr]; exact h
      exact (List.prefix_append_right_inj _).mp h2

/-- No occurrence of pat begins inside the segment d of the text d ++ t,
given that pat does not occur inside d alone and cannot span the boundary. -/
theorem no_occ_in_segment {pat d t : List Char}
    (hinf : ¬ pat <:+: d)
    (hspan : ∀ k, 0 < k → k < pat.length →
      ¬ (pat.take k <:+ d ∧ pat.drop k <+: t)) :
    ∀ i, i < d.length → ¬ pat <+: (d.drop i ++ t) := by
  intro i hi h
  rcases prefix_drop_cases hi h with h1 | ⟨k, hk0, hk1, hk2, hk3⟩
  · exact hinf h1
  · exact hspan k hk0 hk1 ⟨hk2, hk3⟩

/-- Boundary-spanning occurrences are impossible when the segment ends with
a newline the pattern does not contain. -/
theorem hspan_of_lastNl {pat d t : List Char} (hnl : '\n' ∉ pat)
    (hd : d.getLast? = some '\n') :
    ∀ k, 0 < k → k < pat.length →
      ¬ (pat.take k <:+ d ∧ pat.drop k <+: t) := by
  rintro k hk0 hk1 ⟨hsuf, -⟩
  obtain ⟨u, hu⟩ := hsuf
  have hne : pat.take k ≠ [] := by
    intro hc
    have := congrArg List.length hc
    rw [List.length_take] at this
    simp only [List.length_nil] at this
    omega
  rw [← hu, List.getLast?_append] at hd
  obtain ⟨c, hc⟩ := Option.isSome_iff_exists.mp (List.getLast?_isSome.mpr hne)
  rw [hc] at hd
  simp only [Option.or] at hd
  have hmem : c ∈ pat.take k := List.mem_of_getLast?_eq_some hc
  have : c ∈ pat := List.mem_of_mem_take hmem
  rw [Option.some.injEq] at hd
  rw [hd] at this
  exact hnl this

/-- Boundary-spanning occurrences are impossible when nothing follows the
segment or the following text starts with a newline the pattern avoids. -/
theorem hspan_of_head {pat d t : List Char} (hnl : '\n' ∉ pat)
    (ht : t = [] ∨ t.head? = some '\n') :
    ∀ k, 0 < k → k < pat.length →
      ¬ (pat.take k <:+ d ∧ pat.drop k <+: t) := by
  rintro k hk0 hk1 ⟨-, hpre⟩
  have hdne : pat.drop k ≠ [] := by
    intro hc
    have := congrArg List.length hc
    rw [List.length_drop] at this
    simp at this
    omega
  rcases hx : pat.drop k with - | ⟨c, rest'⟩
  · exact hdne hx
  · rw [hx] at hpre
    rcases ht with ht | ht
    · rw [ht] at hpre
      exact absurd (List.prefix_nil.mp hpre) (by simp)
    · cases t with
      | nil => simp at ht
      | cons u t' =>
        rw [List.cons_prefix_cons] at hpre
        obtain ⟨hcu, -⟩ := hpre
        simp only [List.head?_cons, Option.some.injEq] at ht
        have hcmem : c ∈ pat.drop k := by rw [hx]; exact List.mem_cons_self _ _
        have : c ∈ pat := (List.drop_suffix k pat).sublist.subset hcmem
        rw [hcu, ht] at this
        exact hnl this

/-! ### Stepping the scanners -/

theorem scanStarts_cons_none {c : Char} {t : List Char}
    (h : matchStartAt (c :: t) = none) : scanStarts (c :: t) = scanStarts t := by
  simp only [scanStarts]
  split
  · rename_i heq
    exact absurd (h.symm.trans heq) (by simp)
  · rfl

theorem scanStarts_cons_some {c : Char} {t n rest : List Char}
    (h : matchStartAt (c :: t) = some (n, rest)) :
    scanStarts (c :: t) = (n, rest) :: scanStarts rest := by
  simp only [scanStarts]
  split
  · rename_i name rest0 heq
    have h2 := h.symm.trans heq
    simp only [Option.some.injEq, Prod.mk.injEq] at h2
    obtain ⟨h3, h4⟩ := h2
    subst h3
    subst h4
    rfl
  · rename_i heq
    exact absurd (heq.symm.trans h) (by simp)

theorem scanComplete_cons_none {c : Char} {t : List Char}
    (h : matchStartAt (c :: t) = none) :
    scanComplete (c :: t) = scanComplete t := by
  simp only [scanComplete]
  split
  · rename_i heq
    exact absurd (h.symm.trans heq) (by simp)
  · rfl

theorem scanComplete_cons_found {c : Char} {t n rest content after : List Char}
    (h : matchStartAt (c :: t) = some (n, rest))
    (hf : splitFirst (endDelimL n) rest = some (content, after)) :
    scanComplete (c :: t) = (n, content) :: scanComplete after := by
  simp only [scanComplete]
  split
  · rename_i name rest0 heq
    have h2 := h.symm.trans heq
    simp only [Option.some.injEq, Prod.mk.injEq] at h2
    obtain ⟨h3, h4⟩ := h2
    subst h3
    subst h4
    split
    · rename_i content0 after0 heq2
      have h5 := hf.symm.trans heq2
      simp only [Option.some.injEq, Prod.mk.injEq] at h5
      obtain ⟨h6, h7⟩ := h5
      subst h6
      subst h7
      rfl
    · rename_i heq2
      exact absurd (heq2.symm.trans hf) (by simp)
  · rename_i heq
    exact absurd (heq.symm.trans h) (by simp)

theorem scanComplete_cons_nofind {c : Char} {t n rest : List Char}
    (h : matchStartAt (c :: t) = some (n, rest))
    (hf : splitFirst (endDelimL n) rest = none) :
    scanComplete (c :: t) = scanComplete t := by
  simp only [scanComplete]
  split
  · rename_i name rest0 heq
    have h2 := h.symm.trans heq
    simp only [Option.some.injEq, Prod.mk.injEq] at h2
    obtain ⟨h3, h4⟩ := h2
    subst h3
    subst h4
    split
    · rename_i content0 after0 heq2
      exact absurd (hf.symm.trans heq2) (by simp)
    · rfl
  · rename_i heq
    exact absurd (heq.symm.trans h) (by simp)

theorem matchStartAt_none_of_not_prefix {s : List Char}
    (h : ¬ startLit <+: s) : matchStartAt s = none := by
  unfold matchStartAt
  rw [if_neg]
  simpa [List.isPrefixOf_iff_prefix] using h

/-- All positions of a segment free of start-literal occurrences fail the
start-delimiter match. -/
theorem matchStartAt_none_all {d t : List Char}
    (hinf : ¬ startLit <:+: d)
    (hspan : ∀ k, 0 < k → k < startLit.length →
      ¬ (startLit.take k <:+ d ∧ startLit.drop k <+: t)) :
    ∀ i, i < d.length → matchStartAt (d.drop i ++ t) = none := by
  intro i hi
  exact matchStartAt_none_of_not_prefix (no_occ_in_segment hinf hspan i hi)

theorem scanStarts_skip : ∀ (d t : List Char),
    (∀ i, i < d.length → matchStartAt (d.drop i ++ t) = none) →
    scanStarts (d ++ t) = scanStarts t := by
  intro d
  induction d with
  | nil => intro t _; rw [List.nil_append]
  | cons c d ih =>
    intro t h
    have h0 : matchStartAt (c :: (d ++ t)) = none := by
      have := h 0 (by simp)
      simpa using this
    rw [List.cons_append, scanStarts_cons_none h0]
    refine ih t (fun i hi => ?_)
    have := h (i + 1) (by simp only [List.length_cons]; omega)
    simpa using this

theorem scanComplete_skip : ∀ (d t : List Char),
    (∀ i, i < d.length → matchStartAt (d.drop i ++ t) = none) →
    scanComplete (d ++ t) = scanComplete t := by
  intro d
  induction d with
  | nil => intro t _; rw [List.nil_append]
  | cons c d ih =>
    intro t h
    have h0 : matchStartAt (c :: (d ++ t)) = none := by
      have := h 0 (by simp)
      simpa using this
    rw [List.cons_append, scanComplete_cons_none h0]
    refine ih t (fun i hi => ?_)
    have := h (i + 1) (by simp only [List.length_cons]; omega)
    simpa using this

/-! ### The scanners on a rendered delimiter -/

theorem takeWhile_word_eq {n : List Char} (hw : ∀ c ∈ n, isWordChar c = true)
    (r : List Char) : (n ++ '=' :: r).takeWhile isWordChar = n := by
  induction n with
  | nil =>
    rw [List.nil_append, List.takeWhile_cons]
    simp [show isWordChar '=' = false from by decide]
  | cons a n ih =>
    rw [List.cons_append, List.takeWhile_cons]
    rw [hw a (List.mem_cons_self _ _)]
    simp only [if_true]
    rw [ih (fun c hc => hw c (List.mem_cons_of_mem _ hc))]

theorem matchWordThenEq_render {n r : List Char} (hn : n ≠ [])
    (hw : ∀ c ∈ n, isWordChar c = true) :
    matchWordThenEq (n ++ '=' :: '=' :: '=' :: r) = some (n, r) := by
  unfold matchWordThenEq
  rw [takeWhile_word_eq hw]
  rw [List.drop_left]
  rw [if_neg (by simpa [List.isEmpty_iff] using hn)]
  rw [if_pos]
  · rfl
  · rw [List.isPrefixOf_iff_prefix]
    exact ⟨r, rfl⟩

theorem matchStartAt_render {n r : List Char} (hn : n ≠ [])
    (hw : ∀ c ∈ n, isWordChar c = true) :
    matchStartAt (startDelimL n ++ r) = some (n, r) := by
  unfold matchStartAt
  rw [if_pos]
  · rw [show startDelimL n ++ r = startLit ++ (n ++ '=' :: '=' :: '=' :: r) by
      simp [startDelimL, List.append_assoc]]
    rw [List.drop_left]
    exact matchWordThenEq_render hn hw
  · rw [List.isPrefixOf_iff_prefix]
    rw [show startDelimL n ++ r = startLit ++ (n ++ '=' :: '=' :: '=' :: r) by
      simp [startDelimL, List.append_assoc]]
    exact List.prefix_append _ _

theorem matchStartAt_cons_ne {c : Char} {t : List Char} (hc : c ≠ '=') :
    matchStartAt (c :: t) = none := by
  apply matchStartAt_none_of_not_prefix
  intro h
  rw [show startLit = '=' :: "==SECTION:".data from by decide,
    List.cons_prefix_cons] at h
  exact hc h.1.symm

/-! ### splitFirst against a known first occurrence -/

/-- splitFirst finds the designated occurrence when no earlier occurrence
starts inside the leading segment. -/
theorem splitFirst_append_pat {pat : List Char} (hne : pat ≠ []) :
    ∀ (d t : List Char),
    (∀ i, i < d.length → ¬ pat <+: (List.drop i d ++ (pat ++ t))) →
    splitFirst pat (d ++ pat ++ t) = some (d, t) := by
  intro d
  induction d with
  | nil =>
    intro t _
    rw [List.nil_append]
    cases hp : pat with
    | nil => exact absurd hp hne
    | cons p pt =>
      rw [show (p :: pt) ++ t = p :: (pt ++ t) from rfl]
      unfold splitFirst
      rw [if_pos]
      · rw [show p :: (pt ++ t) = (p :: pt) ++ t from rfl, List.drop_left]
      · rw [List.isPrefixOf_iff_prefix]
        exact ⟨t, by rw [List.cons_append]⟩
  | cons c d ih =>
    intro t h
    have h0 : ¬ pat <+: (c :: (d ++ pat ++ t)) := by
      have := h 0 (by simp)
      simpa [List.append_assoc] using this
    rw [show (c :: d) ++ pat ++ t = c :: (d ++ pat ++ t) by simp]
    cases hx : d ++ pat ++ t with
    | nil =>
      exfalso
      have := congrArg List.length hx
      simp only [List.length_append, List.length_nil] at this
      cases pat with
      | nil => exact hne rfl
      | cons a l => simp at this
    | cons y ys =>
      rw [← hx]
      unfold splitFirst
      rw [if_neg (by rw [List.isPrefixOf_iff_prefix]; exact h0)]
      have hrec := ih t (fun i hi => by
        have := h (i + 1) (by simp only [List.length_cons]; omega)
        simpa using this)
      rw [hrec]
      rfl

/-- splitFirst misses: the pattern does not occur at all. -/
theorem splitFirst_none_of_not_infix {pat : List Char} (hne : pat ≠ []) :
    ∀ {s : List Char}, ¬ pat <:+: s → splitFirst pat s = none := by
  intro s
  induction s with
  | nil =>
    intro _
    unfold splitFirst
    rw [if_neg]
    simpa [List.isEmpty_iff] using hne
  | cons c t ih =>
    intro h
    unfold splitFirst
    rw [if_neg, ih (fun hx => h (List.infix_cons hx))]
    · rfl
    · rw [List.isPrefixOf_iff_prefix]
      exact fun hx => h hx.isInfix

/-! ### Rendering sectioned texts

The renderer is the specification-side encoder: it produces exactly the
texts combinePassOutputs produces for complete sections (blocks joined by
blank lines) and in addition can render a truncated section as an opening
delimiter with content and no end delimiter. -/

/-- One rendered block: the full delimiter form for a complete section, the
truncated form (no end delimiter) otherwise. -/
def blockL (sp : ParsedSection) : List Char :=
  if sp.complete then
    startDelimL sp.name.data ++ '\n' :: (sp.content.data ++ '\n' :: endDelimL sp.name.data)
  else startDelimL sp.name.data ++ '\n' :: sp.content.data

/-- Rendered sectioned text: blocks joined by blank lines. -/
def renderL : List ParsedSection → List Char
  | [] => []
  | sp :: rest => blockL sp ++ (if rest.isEmpty then [] else '\n' :: '\n' :: renderL rest)

/-- The rendered text as a String. -/
def renderSections (specs : List ParsedSection) : String :=
  String.mk (renderL specs)

/-- Everything that follows a section's opening delimiter in the rendered
text: newline, content, the end delimiter when complete, then the remaining
blocks after a blank line. -/
def renderTail (sp : ParsedSection) (rest : List ParsedSection) : List Char :=
  (if sp.complete then '\n' :: (sp.content.data ++ '\n' :: endDelimL sp.name.data)
   else '\n' :: sp.content.data) ++
  (if rest.isEmpty then [] else '\n' :: '\n' :: renderL rest)

theorem renderL_cons (sp : ParsedSection) (rest : List ParsedSection) :
    renderL (sp :: rest) = startDelimL sp.name.data ++ renderTail sp rest := by
  cases hc : sp.complete <;>
    simp [renderL, blockL, renderTail, hc, List.append_assoc]

theorem startDelim_cons (n R : List Char) :
    startDelimL n ++ R = '=' :: (("==SECTION:".data ++ n ++ "===".data) ++ R) := by
  rw [show startDelimL n = '=' :: ("==SECTION:".data ++ n ++ "===".data) by
    show startLit ++ n ++ "===".data = _
    rw [show startLit = '=' :: "==SECTION:".data from by decide]
    simp [List.append_assoc]]
  rw [List.cons_append]

theorem scanStarts_startDelim {n R : List Char} (hn : n ≠ [])
    (hw : ∀ c ∈ n, isWordChar c = true) :
    scanStarts (startDelimL n ++ R) = (n, R) :: scanStarts R := by
  have hm : matchStartAt ('=' :: (("==SECTION:".data ++ n ++ "===".data) ++ R)) =
      some (n, R) := by
    rw [← startDelim_cons]
    exact matchStartAt_render hn hw
  rw [startDelim_cons, scanStarts_cons_some hm]

/-- Start-delimiter matches of the rendered text: one per rendered section,
in order, paired with the whole suffix after its opening delimiter. -/
def expectedStarts : List ParsedSection → List (List Char × List Char)
  | [] => []
  | sp :: rest => (sp.name.data, renderTail sp rest) :: expectedStarts rest

theorem nl_not_in_startLit : '\n' ∉ startLit := by decide

theorem startLit_ne_nil : startLit ≠ [] := by decide

theorem not_startLit_in_nlnl : ¬ startLit <:+: ['\n'] :=
  not_infix_cons_nl nl_not_in_startLit startLit_ne_nil
    (not_infix_nil_of_ne startLit_ne_nil)

/-- The scanStarts skip segment after a section's opener, without the
following blank-line separator. -/
def midSeg (sp : ParsedSection) : List Char :=
  if sp.complete then '\n' :: (sp.content.data ++ '\n' :: endDelimL sp.name.data)
  else '\n' :: sp.content.data

theorem renderTail_eq_mid (sp : ParsedSection) (rest : List ParsedSection) :
    renderTail sp rest =
      midSeg sp ++ (if rest.isEmpty then [] else '\n' :: '\n' :: renderL rest) := by
  cases hc : sp.complete <;> simp [renderTail, midSeg, hc]

theorem not_startLit_in_midSeg {sp : ParsedSection}
    (hw : ∀ c ∈ sp.name.data, isWordChar c = true)
    (hcd : noDelimsL sp.content.data) : ¬ startLit <:+: midSeg sp := by
  have hc : ¬ startLit <:+: sp.content.data :=
    not_infix_of_hasInfix_false hcd.1
  unfold midSeg
  split
  · exact not_infix_cons_nl nl_not_in_startLit startLit_ne_nil
      (not_infix_append_nl nl_not_in_startLit hc (not_startLit_in_endDelim hw))
  · exact not_infix_cons_nl nl_not_in_startLit startLit_ne_nil hc

theorem not_startLit_in_midSegNl {sp : ParsedSection}
    (hw : ∀ c ∈ sp.name.data, isWordChar c = true)
    (hcd : noDelimsL sp.content.data) :
    ¬ startLit <:+: midSeg sp ++ ['\n', '\n'] := by
  have h1 : (['\n', '\n'] : List Char) = '\n' :: ['\n'] := rfl
  rw [show midSeg sp ++ ['\n', '\n'] = midSeg sp ++ '\n' :: ['\n'] from rfl]
  exact not_infix_append_nl nl_not_in_startLit
    (not_startLit_in_midSeg hw hcd) not_startLit_in_nlnl

theorem midSegNl_getLast (sp : ParsedSection) :
    (midSeg sp ++ ['\n', '\n']).getLast? = some '\n' := by
  rw [show midSeg sp ++ ['\n', '\n'] = (midSeg sp ++ ['\n']) ++ ['\n'] by
    simp]
  exact List.getLast?_concat _

/-- The bare start-delimiter scan of a rendered text finds exactly the
rendered sections. -/
theorem scanStarts_render : ∀ (specs : List ParsedSection),
    (∀ sp ∈ specs, wordNameL sp.name.data ∧ noDelimsL sp.content.data) →
    scanStarts (renderL specs) = expectedStarts specs := by
  intro specs
  induction specs with
  | nil => intro _; simp [renderL, expectedStarts, scanStarts]
  | cons sp rest ih =>
    intro h
    obtain ⟨⟨hn, hw⟩, hcd⟩ := h sp (List.mem_cons_self _ _)
    rw [renderL_cons, scanStarts_startDelim hn hw]
    simp only [expectedStarts]
    congr 1
    rw [renderTail_eq_mid]
    cases rest with
    | nil =>
      simp only [List.isEmpty_nil, if_true]
      rw [List.append_nil, show midSeg sp = midSeg sp ++ ([] : List Char) by simp]
      rw [scanStarts_skip (midSeg sp) []
        (matchStartAt_none_all (not_startLit_in_midSeg hw hcd)
          (hspan_of_head nl_not_in_startLit (Or.inl rfl)))]
      simp [scanStarts, expectedStarts]
    | cons r rs =>
      rw [if_neg (by simp)]
      rw [show midSeg sp ++ '\n' :: '\n' :: renderL (r :: rs) =
          (midSeg sp ++ ['\n', '\n']) ++ renderL (r :: rs) by simp]
      rw [scanStarts_skip (midSeg sp ++ ['\n', '\n']) (renderL (r :: rs))
        (matchStartAt_none_all (not_startLit_in_midSegNl hw hcd)
          (hspan_of_lastNl nl_not_in_startLit (midSegNl_getLast sp)))]
      exact ih (fun q hq => h q (List.mem_cons_of_mem _ hq))

/-- Full-section matches of the rendered text: one per complete rendered
section, in order, paired with its raw (untrimmed) rendered content. -/
def expectedCompletes : List ParsedSection → List (List Char × List Char)
  | [] => []
  | sp :: rest =>
    (if sp.complete then [(sp.name.data, '\n' :: sp.content.data ++ ['\n'])] else []) ++
    expectedCompletes rest

theorem expectedCompletes_cons_true {sp : ParsedSection} {rest : List ParsedSection}
    (hc : sp.complete = true) :
    expectedCompletes (sp :: rest) =
      (sp.name.data, '\n' :: sp.content.data ++ ['\n']) :: expectedCompletes rest := by
  simp [expectedCompletes, hc]

theorem expectedCompletes_cons_false {sp : ParsedSection} {rest : List ParsedSection}
    (hc : sp.complete = false) :
    expectedCompletes (sp :: rest) = expectedCompletes rest := by
  simp [expectedCompletes, hc]

theorem not_endDelim_in_block {t₀ : List Char} (hwt : ∀ c ∈ t₀, isWordChar c = true)
    {sp : ParsedSection} (hw : ∀ c ∈ sp.name.data, isWordChar c = true)
    (hcd : noDelimsL sp.content.data)
    (hname : sp.complete = true → sp.name.data ≠ t₀) :
    ¬ endDelimL t₀ <:+: blockL sp := by
  have hnl := nl_not_in_endDelim hwt
  have hC : ¬ endDelimL t₀ <:+: sp.content.data :=
    fun h => (not_infix_of_hasInfix_false hcd.2) (endLit_of_endDelim h)
  unfold blockL
  split
  · rename_i hc
    exact not_infix_append_nl hnl (not_endDelim_in_startDelim hw)
      (not_infix_append_nl hnl hC
        (fun h => (hname hc) ((endDelim_in_endDelim_eq hwt hw h).symm)))
  · exact not_infix_append_nl hnl (not_endDelim_in_startDelim hw) hC

/-- A specific end delimiter does not occur anywhere in a rendered text
none of whose complete sections carries that name. -/
theorem no_endDelim_in_render {t₀ : List Char}
    (hwt : ∀ c ∈ t₀, isWordChar c = true) :
    ∀ (specs : List ParsedSection),
    (∀ sp ∈ specs, wordNameL sp.name.data ∧ noDelimsL sp.content.data) →
    (∀ sp ∈ specs, sp.complete = true → sp.name.data ≠ t₀) →
    ¬ endDelimL t₀ <:+: renderL specs := by
  intro specs
  induction specs with
  | nil =>
    intro _ _
    exact not_infix_nil_of_ne (endDelimL_ne_nil t₀)
  | cons sp rest ih =>
    intro hg hn
    obtain ⟨⟨hnn, hw⟩, hcd⟩ := hg sp (List.mem_cons_self _ _)
    have hblock := not_endDelim_in_block hwt hw hcd (hn sp (List.mem_cons_self _ _))
    have hnl := nl_not_in_endDelim hwt
    cases rest with
    | nil =>
      simp only [renderL, List.isEmpty_nil, if_true, List.append_nil]
      exact hblock
    | cons r rs =>
      simp only [renderL]
      rw [if_neg (by simp)]
      exact not_infix_append_nl hnl hblock
        (not_infix_cons_nl hnl (endDelimL_ne_nil t₀)
          (ih (fun q hq => hg q (List.mem_cons_of_mem _ hq))
              (fun q hq => hn q (List.mem_cons_of_mem _ hq))))

/-- The full-section scan of a rendered text finds exactly the complete
rendered sections, each with its raw padded content, provided no truncated
section shares its name with a complete one. -/
theorem scanComplete_render : ∀ (specs : List ParsedSection),
    (∀ sp ∈ specs, wordNameL sp.name.data ∧ noDelimsL sp.content.data) →
    (∀ sp ∈ specs, sp.complete = false → ∀ sp2 ∈ specs, sp2.complete = true →
      sp.name.data ≠ sp2.name.data) →
    scanComplete (renderL specs) = expectedCompletes specs := by
  intro specs
  induction specs with
  | nil => intro _ _; simp [renderL, expectedCompletes, scanComplete]
  | cons sp rest ih =>
    intro hg hd
    obtain ⟨⟨hn, hw⟩, hcd⟩ := hg sp (List.mem_cons_self _ _)
    have hgrest : ∀ q ∈ rest, wordNameL q.name.data ∧ noDelimsL q.content.data :=
      fun q hq => hg q (List.mem_cons_of_mem _ hq)
    have hdrest : ∀ q ∈ rest, q.complete = false →
        ∀ q2 ∈ rest, q2.complete = true → q.name.data ≠ q2.name.data :=
      fun q hq hqc q2 hq2 hq2c =>
        hd q (List.mem_cons_of_mem _ hq) hqc q2 (List.mem_cons_of_mem _ hq2) hq2c
    have hC : ¬ endDelimL sp.name.data <:+: sp.content.data :=
      fun h => (not_infix_of_hasInfix_false hcd.2) (endLit_of_endDelim h)
    have hnlE := nl_not_in_endDelim hw
    rw [renderL_cons]
    have hm : matchStartAt
        ('=' :: (("==SECTION:".data ++ sp.name.data ++ "===".data) ++ renderTail sp rest)) =
        some (sp.name.data, renderTail sp rest) := by
      rw [← startDelim_cons]
      exact matchStartAt_render hn hw
    rw [startDelim_cons]
    cases hc : sp.complete with
    | true =>
      have hshape : renderTail sp rest =
          ('\n' :: sp.content.data ++ ['\n']) ++ endDelimL sp.name.data ++
            (if rest.isEmpty then [] else '\n' :: '\n' :: renderL rest) := by
        rw [renderTail_eq_mid]
        simp [midSeg, hc, List.append_assoc]
      have hinfE : ¬ endDelimL sp.name.data <:+: ('\n' :: sp.content.data ++ ['\n']) := by
        rw [show ('\n' :: sp.content.data ++ ['\n'] : List Char) =
            '\n' :: (sp.content.data ++ '\n' :: []) by simp]
        exact not_infix_cons_nl hnlE (endDelimL_ne_nil _)
          (not_infix_append_nl hnlE hC (not_infix_nil_of_ne (endDelimL_ne_nil _)))
      have hlastE : ('\n' :: sp.content.data ++ ['\n'] : List Char).getLast? = some '\n' := by
        rw [show ('\n' :: sp.content.data ++ ['\n'] : List Char) =
            ('\n' :: sp.content.data) ++ ['\n'] by simp]
        exact List.getLast?_concat _
      have hsplit : splitFirst (endDelimL sp.name.data) (renderTail sp rest) =
          some ('\n' :: sp.content.data ++ ['\n'],
            if rest.isEmpty then [] else '\n' :: '\n' :: renderL rest) := by
        rw [hshape]
        exact splitFirst_append_pat (endDelimL_ne_nil _) _ _
          (no_occ_in_segment hinfE (hspan_of_lastNl hnlE hlastE))
      rw [scanComplete_cons_found hm hsplit, expectedCompletes_cons_true hc]
      congr 1
      cases rest with
      | nil =>
        simp only [List.isEmpty_nil, if_true]
        simp [scanComplete, expectedCompletes]
      | cons r rs =>
        rw [if_neg (by simp)]
        rw [scanComplete_cons_none (matchStartAt_cons_ne (by decide))]
        rw [scanComplete_cons_none (matchStartAt_cons_ne (by decide))]
        exact ih hgrest hdrest
    | false =>
      have hnofind : splitFirst (endDelimL sp.name.data) (renderTail sp rest) = none := by
        apply splitFirst_none_of_not_infix (endDelimL_ne_nil _)
        rw [renderTail_eq_mid]
        cases rest with
        | nil =>
          simp only [List.isEmpty_nil, if_true, List.append_nil]
          rw [show midSeg sp = '\n' :: sp.content.data by simp [midSeg, hc]]
          exact not_infix_cons_nl hnlE (endDelimL_ne_nil _) hC
        | cons r rs =>
          rw [if_neg (by simp)]
          rw [show midSeg sp = '\n' :: sp.content.data by simp [midSeg, hc]]
          rw [show ('\n' :: sp.content.data) ++ '\n' :: '\n' :: renderL (r :: rs) =
              '\n' :: (sp.content.data ++ '\n' :: ('\n' :: renderL (r :: rs))) by simp]
          refine not_infix_cons_nl hnlE (endDelimL_ne_nil _)
            (not_infix_append_nl hnlE hC
              (not_infix_cons_nl hnlE (endDelimL_ne_nil _) ?_))
          exact no_endDelim_in_render hw (r :: rs) hgrest
            (fun q hq hqc => Ne.symm
              (hd sp (List.mem_cons_self _ _) hc q (List.mem_cons_of_mem _ hq) hqc))
      rw [scanComplete_cons_nofind hm hnofind, expectedCompletes_cons_false hc]
      have hcc : ¬ startLit <:+: sp.content.data := not_infix_of_hasInfix_false hcd.1
      have htail : renderTail sp rest =
          '\n' :: sp.content.data ++ (if rest.isEmpty then [] else '\n' :: '\n' :: renderL rest) := by
        rw [renderTail_eq_mid]
        rw [show midSeg sp = '\n' :: sp.content.data by simp [midSeg, hc]]
      cases rest with
      | nil =>
        rw [htail]
        simp only [List.isEmpty_nil, if_true, List.append_nil]
        have hseg : ("==SECTION:".data ++ sp.name.data ++ "===".data) ++
            ('\n' :: sp.content.data) =
            (("==SECTION:".data ++ sp.name.data ++ "===".data) ++
              ('\n' :: sp.content.data)) ++ ([] : List Char) := by simp
        rw [hseg]
        rw [scanComplete_skip _ []
          (matchStartAt_none_all
            (not_infix_append_nl nl_not_in_startLit (not_startLit_in_startTail hw) hcc)
            (hspan_of_head nl_not_in_startLit (Or.inl rfl)))]
        simp [scanComplete, expectedCompletes]
      | cons r rs =>
        rw [htail]
        rw [if_neg (by simp)]
        have hseg : ("==SECTION:".data ++ sp.name.data ++ "===".data) ++
            ('\n' :: sp.content.data ++ '\n' :: '\n' :: renderL (r :: rs)) =
            ((("==SECTION:".data ++ sp.name.data ++ "===".data) ++
              ('\n' :: sp.content.data)) ++ ['\n', '\n']) ++ renderL (r :: rs) := by
          simp
        rw [hseg]
        have hinfD : ¬ startLit <:+:
            (("==SECTION:".data ++ sp.name.data ++ "===".data) ++
              ('\n' :: sp.content.data)) ++ ['\n', '\n'] := by
          rw [show (("==SECTION:".data ++ sp.name.data ++ "===".data) ++
              ('\n' :: sp.content.data)) ++ ['\n', '\n'] =
              ("==SECTION:".data ++ sp.name.data ++ "===".data) ++
                '\n' :: (sp.content.data ++ '\n' :: ['\n']) by simp]
          exact not_infix_append_nl nl_not_in_startLit (not_startLit_in_startTail hw)
            (not_infix_append_nl nl_not_in_startLit hcc not_startLit_in_nlnl)
        have hlastD : ((("==SECTION:".data ++ sp.name.data ++ "===".data) ++
            ('\n' :: sp.content.data)) ++ ['\n', '\n']).getLast? = some '\n' := by
          rw [show ((("==SECTION:".data ++ sp.name.data ++ "===".data) ++
              ('\n' :: sp.content.data)) ++ ['\n', '\n']) =
              (((("==SECTION:".data ++ sp.name.data ++ "===".data) ++
                ('\n' :: sp.content.data)) ++ ['\n']) ++ ['\n']) by simp]
          exact List.getLast?_concat _
        rw [scanComplete_skip _ _
          (matchStartAt_none_all hinfD (hspan_of_lastNl nl_not_in_startLit hlastD))]
        exact ih hgrest hdrest

/-! ### Assembling parseSectionedOutput on a rendered text -/

theorem expectedCompletes_eq_filter : ∀ (specs : List ParsedSection),
    expectedCompletes specs = (specs.filter (fun sp => sp.complete)).map
      (fun sp => (sp.name.data, '\n' :: sp.content.data ++ ['\n'])) := by
  intro specs
  induction specs with
  | nil => rfl
  | cons sp rest ih =>
    cases hc : sp.complete <;>
      simp [expectedCompletes, List.filter_cons, hc, ih]

theorem jsTrimL_cons_ws {w : Char} (hw : jsWS w = true) (l : List Char) :
    jsTrimL (w :: l) = jsTrimL l := by
  simp [jsTrimL, List.dropWhile_cons, hw]

theorem jsTrimL_concat_ws {w : Char} (hw : jsWS w = true) (l : List Char) :
    jsTrimL (l ++ [w]) = jsTrimL l := by
  unfold jsTrimL
  rw [List.dropWhile_append]
  split
  · rename_i hemp
    rw [List.isEmpty_iff] at hemp
    rw [hemp]
    simp [List.dropWhile_cons, hw]
  · rename_i hemp
    simp [List.reverse_append, List.dropWhile_cons, hw]

theorem jsTrimL_pad (l : List Char) : jsTrimL ('\n' :: l ++ ['\n']) = jsTrimL l := by
  rw [show ('\n' :: l ++ ['\n'] : List Char) = '\n' :: (l ++ ['\n']) from rfl]
  rw [jsTrimL_cons_ws (by decide), jsTrimL_concat_ws (by decide)]

theorem string_mk_data (s : String) : String.mk s.data = s := by
  cases s
  rfl

theorem string_data_inj {a b : String} (h : a.data = b.data) : a = b := by
  cases a
  cases b
  exact congrArg String.mk h

/-- The complete=false entries the parser reports for a rendered text: one
per truncated rendered section, its content the trimmed rendered suffix
after that section's opening delimiter. -/
def truncatedEntries : List ParsedSection → List ParsedSection
  | [] => []
  | sp :: rest =>
    (if sp.complete then [] else
      [ParsedSection.mk sp.name (String.mk (jsTrimL (renderTail sp rest))) false]) ++
    truncatedEntries rest

theorem contains_iff_memL {l : List (List Char)} {a : List Char} :
    l.contains a = true ↔ a ∈ l := by
  rw [show l.contains a = l.elem a from rfl]
  exact List.elem_iff

theorem filter_expectedStarts : ∀ (specs : List ParsedSection) (seen : List (List Char)),
    (∀ sp ∈ specs, sp.complete = true → sp.name.data ∈ seen) →
    (∀ sp ∈ specs, sp.complete = false → sp.name.data ∉ seen) →
    ((expectedStarts specs).filter (fun p => !seen.contains p.1)).map
      (fun p => ParsedSection.mk (String.mk p.1) (String.mk (jsTrimL p.2)) false) =
    truncatedEntries specs := by
  intro specs
  induction specs with
  | nil => intro seen _ _; rfl
  | cons sp rest ih =>
    intro seen hin hout
    have hrec := ih seen (fun q hq => hin q (List.mem_cons_of_mem _ hq))
      (fun q hq => hout q (List.mem_cons_of_mem _ hq))
    simp only [expectedStarts, List.filter_cons]
    cases hc : sp.complete with
    | true =>
      have hmem : sp.name.data ∈ seen := hin sp (List.mem_cons_self _ _) hc
      rw [if_neg (by simp [hmem])]
      rw [hrec]
      simp [truncatedEntries, hc]
    | false =>
      have hmem : sp.name.data ∉ seen := hout sp (List.mem_cons_self _ _) hc
      rw [if_pos (by simp [hmem])]
      rw [List.map_cons, hrec]
      simp [truncatedEntries, hc, string_mk_data]

/-- parseSectionedOutput on a rendered sectioned text: all complete
sections come back first with trimmed contents, then one complete=false
entry per truncated section whose content is the trimmed rendered suffix
after its opening delimiter. -/
theorem parseSectioned_render (specs : List ParsedSection)
    (hg : ∀ sp ∈ specs, wordNameL sp.name.data ∧ noDelimsL sp.content.data)
    (hd : ∀ sp ∈ specs, sp.complete = false → ∀ sp2 ∈ specs, sp2.complete = true →
      sp.name.data ≠ sp2.name.data) :
    parseSectionedOutput (renderSections specs) =
      (specs.filter (fun sp => sp.complete)).map
        (fun sp => ParsedSection.mk sp.name (jsTrim sp.content) true) ++
      truncatedEntries specs := by
  have hdata : (renderSections specs).data = renderL specs := rfl
  simp only [parseSectionedOutput]
  rw [hdata, scanComplete_render specs hg hd, scanStarts_render specs hg]
  have hcompletes : (expectedCompletes specs).map
      (fun p => ParsedSection.mk (String.mk p.1) (String.mk (jsTrimL p.2)) true) =
      (specs.filter (fun sp => sp.complete)).map
        (fun sp => ParsedSection.mk sp.name (jsTrim sp.content) true) := by
    rw [expectedCompletes_eq_filter, List.map_map]
    apply List.map_congr_left
    intro sp _
    simp only [Function.comp]
    rw [jsTrimL_pad, string_mk_data]
    rfl
  have hseen : (expectedCompletes specs).map (fun p => p.1) =
      (specs.filter (fun sp => sp.complete)).map (fun sp => sp.name.data) := by
    rw [expectedCompletes_eq_filter, List.map_map]
    rfl
  have hin : ∀ sp ∈ specs, sp.complete = true →
      sp.name.data ∈ (specs.filter (fun sp => sp.complete)).map (fun sp => sp.name.data) :=
    fun sp hsp hc =>
      List.mem_map.mpr ⟨sp, List.mem_filter.mpr ⟨hsp, by rw [hc]⟩, rfl⟩
  have hout : ∀ sp ∈ specs, sp.complete = false →
      sp.name.data ∉ (specs.filter (fun sp => sp.complete)).map (fun sp => sp.name.data) := by
    intro sp hsp hc hmem
    obtain ⟨q, hqf, hqe⟩ := List.mem_map.mp hmem
    obtain ⟨hq, hqc⟩ := List.mem_filter.mp hqf
    exact (hd sp hsp hc q hq (by simpa using hqc)) hqe.symm
  rw [hcompletes, hseen, filter_expectedStarts specs _ hin hout]

theorem truncatedEntries_length : ∀ (specs : List ParsedSection),
    (truncatedEntries specs).length =
      (specs.filter (fun sp => !sp.complete)).length := by
  intro specs
  induction specs with
  | nil => rfl
  | cons sp rest ih =>
    cases hc : sp.complete <;>
      simp [truncatedEntries, List.filter_cons, hc, ih]

/-- Counterexample to C3 as stated: a truncated section's reported content
is the trimmed suffix after its opening delimiter, not the raw suffix. For
the text consisting of one unterminated opener followed by a space and x,
the suffix after the opener is the two-character string, but the parser
reports the one-character trimmed content. -/
theorem C3_claim_counterexample :
    parseSectionedOutput "===SECTION:a=== x" = [⟨"a", "x", false⟩] ∧
    (⟨"a", " x", false⟩ : ParsedSection) ∉ parseSectionedOutput "===SECTION:a=== x" := by
  have h : parseSectionedOutput "===SECTION:a=== x" = [⟨"a", "x", false⟩] := by
    simp +decide [parseSectionedOutput, scanComplete, scanStarts, matchStartAt,
      matchWordThenEq, splitFirst, startLit, endDelimL, jsTrimL]
  refine ⟨h, ?_⟩
  rw [h]
  decide

/-- C3 amended: on a rendered sectioned text with k complete and m
truncated sections (word-run names, delimiter-free contents, truncated
names not shared with complete sections), parseSectionedOutput returns the
k complete sections first, with trimmed contents, then one complete=false
entry per truncated section whose content is the trimmed suffix after its
opening delimiter; in total exactly k + m entries. -/
theorem C3_sectioned_roundtrip (specs : List ParsedSection)
    (hg : ∀ sp ∈ specs, wordNameL sp.name.data ∧ noDelimsL sp.content.data)
    (hd : ∀ sp ∈ specs, sp.complete = false → ∀ sp2 ∈ specs, sp2.complete = true →
      sp.name.data ≠ sp2.name.data) :
    parseSectionedOutput (renderSections specs) =
      (specs.filter (fun sp => sp.complete)).map
        (fun sp => ParsedSection.mk sp.name (jsTrim sp.content) true) ++
      truncatedEntries specs ∧
    (parseSectionedOutput (renderSections specs)).length =
      (specs.filter (fun sp => sp.complete)).length +
      (specs.filter (fun sp => !sp.complete)).length := by
  have h := parseSectioned_render specs hg hd
  refine ⟨h, ?_⟩
  rw [h, List.length_append, List.length_map, truncatedEntries_length]

/-- A two-section rendered text used to instantiate the parser theorems. -/
def demoSectioned : List ParsedSection :=
  [ParsedSection.mk "alpha" "Hello world" true,
   ParsedSection.mk "beta" "partial tail" false]

/-- C3 witness: the amended statement at a concrete rendered text with one
complete and one truncated section. -/
theorem C3_sectioned_roundtrip_witness :
    parseSectionedOutput (renderSections demoSectioned) =
      (demoSectioned.filter (fun sp => sp.complete)).map
        (fun sp => ParsedSection.mk sp.name (jsTrim sp.content) true) ++
      truncatedEntries demoSectioned ∧
    (parseSectionedOutput (renderSections demoSectioned)).length =
      (demoSectioned.filter (fun sp => sp.complete)).length +
      (demoSectioned.filter (fun sp => !sp.complete)).length :=
  C3_sectioned_roundtrip demoSectioned (by decide) (by decide)

/-! ### C8: combinePassOutputs followed by parseSectionedOutput -/

theorem sectionBlock_data {p : ParsedSection} (hc : p.complete = true) :
    (sectionBlock p).data = blockL p := by
  unfold sectionBlock blockL
  rw [if_pos hc]
  simp [String.data_append, startDelimL, endDelimL, startLit, List.append_assoc,
    List.cons_append, List.nil_append]

theorem combinePass_two (r1 r2 : String) (s1 s2 : ParsedSection)
    (h1 : s1.complete = true) (h2 : s2.complete = true) :
    combinePassOutputs r1 r2 [s1] [s2] = renderSections [s1, s2] := by
  unfold combinePassOutputs
  rw [show ([s1].filter (fun s => s.complete)) = [s1] by simp [h1],
    show ([s2].filter (fun s => s.complete)) = [s2] by simp [h2]]
  apply string_data_inj
  rw [show String.intercalate "\n\n" ([s1].map sectionBlock ++ [s2].map sectionBlock) =
      sectionBlock s1 ++ "\n\n" ++ sectionBlock s2 from rfl]
  simp only [String.data_append, sectionBlock_data h1, sectionBlock_data h2]
  show _ = renderL [s1, s2]
  simp [renderL, List.append_assoc, List.cons_append]

/-- C8: encoding two delimiter-free, word-named complete sections with
combinePassOutputs and parsing the result with parseSectionedOutput yields
exactly those two sections, complete, contents preserved modulo trim. -/
theorem C8_combine_parse_roundtrip (r1 r2 : String) (s1 s2 : ParsedSection)
    (h1c : s1.complete = true) (h2c : s2.complete = true)
    (h1w : wordNameL s1.name.data) (h2w : wordNameL s2.name.data)
    (h1d : noDelimsL s1.content.data) (h2d : noDelimsL s2.content.data) :
    parseSectionedOutput (combinePassOutputs r1 r2 [s1] [s2]) =
      [ParsedSection.mk s1.name (jsTrim s1.content) true,
       ParsedSection.mk s2.name (jsTrim s2.content) true] := by
  rw [combinePass_two r1 r2 s1 s2 h1c h2c]
  have hg : ∀ sp ∈ [s1, s2], wordNameL sp.name.data ∧ noDelimsL sp.content.data := by
    intro sp hsp
    rcases List.mem_cons.mp hsp with rfl | hsp2
    · exact ⟨h1w, h1d⟩
    · rcases List.mem_cons.mp hsp2 with rfl | h3
      · exact ⟨h2w, h2d⟩
      · exact absurd h3 (by simp)
  have hd : ∀ sp ∈ [s1, s2], sp.complete = false →
      ∀ sp2 ∈ [s1, s2], sp2.complete = true → sp.name.data ≠ sp2.name.data := by
    intro sp hsp hcf
    rcases List.mem_cons.mp hsp with rfl | hsp2
    · exact absurd (hcf.symm.trans h1c) (by decide)
    · rcases List.mem_cons.mp hsp2 with rfl | h3
      · exact absurd (hcf.symm.trans h2c) (by decide)
      · exact absurd h3 (by simp)
  rw [parseSectioned_render [s1, s2] hg hd]
  simp [List.filter_cons, h1c, h2c, truncatedEntries]

/-- C8 witness: the round trip at two concrete sections. -/
theorem C8_combine_parse_roundtrip_witness :
    parseSectionedOutput (combinePassOutputs "raw pass one" "raw pass two"
      [ParsedSection.mk "alpha" "Hello world" true]
      [ParsedSection.mk "beta" "Second body, with punctuation." true]) =
      [ParsedSection.mk "alpha" (jsTrim "Hello world") true,
       ParsedSection.mk "beta" (jsTrim "Second body, with punctuation.") true] :=
  C8_combine_parse_roundtrip "raw pass one" "raw pass two" _ _
    rfl rfl (by decide) (by decide) (by decide) (by decide)

/-! ## Ranking aggregation (pipeline.ts, calculateAggregateRankings)

Two models of the aggregation arithmetic are developed side by side. The
bit-faithful model evaluates every JS number operation in binary64 (the fl
rounding below) and carries the `if (!agent) return` truthiness guard of
the positions loop. The exact-rational idealization (collectPositions,
round2, entryOf) replaces binary64 arithmetic by exact arithmetic and
omits the falsy-agent guard; it is kept for the permutation-invariance
analysis, where only the symmetry of the arithmetic matters. The JS object
that accumulates per-agent rank lists is modelled by an insertion-ordered
association list (JS objects preserve insertion order of string keys). -/

/-- Stage 2 result record (types.ts, Stage2Result). -/
structure Stage2Result where
  agent : String
  rankingRaw : String
  parsedRanking : List String
deriving Repr

/-- Label-to-agent map (types.ts, LabelMap): a JS record, modelled as an
association list with first-match lookup. -/
abbrev LabelMap := List (String × String)

/-- JS property read on the label map. -/
def lookupLabel (labels : LabelMap) (lab : String) : Option String :=
  (labels.find? (fun p => p.1 == lab)).map (fun p => p.2)

/-- Aggregate ranking record (pipeline.ts, AggregateRanking). -/
structure AggregateRanking where
  agent : String
  averageRank : ℚ
  rankingsCount : ℕ
deriving DecidableEq, Repr

/-- The JS statements building the positions record:
if the agent key exists, push the rank onto its array, otherwise create the
key (insertion order preserved). -/
def pushRank (positions : List (String × List ℕ)) (agent : String) (rank : ℕ) :
    List (String × List ℕ) :=
  if positions.any (fun p => p.1 == agent) then
    positions.map (fun p => if p.1 == agent then (p.1, p.2 ++ [rank]) else p)
  else positions ++ [(agent, [rank])]

/-- The nested forEach of calculateAggregateRankings in the exact
idealization: for every result and every label at 0-based index idx of its
parsed ranking, if the label maps to an agent, push rank idx + 1 for that
agent; unknown labels are skipped. The falsy-agent guard of the source is
omitted here and carried by collectPositionsFP below. -/
def collectPositions (stage2 : List Stage2Result) (labels : LabelMap) :
    List (String × List ℕ) :=
  stage2.foldl
    (fun pos res =>
      res.parsedRanking.enum.foldl
        (fun pos il =>
          match lookupLabel labels il.2 with
          | some agent => pushRank pos agent (il.1 + 1)
          | none => pos)
        pos)
    []

/-- The JS expression Math.round(x * 100) / 100 in exact arithmetic (the
idealization; fpAverage below is the binary64 evaluation). -/
def round2 (q : ℚ) : ℚ := (round (q * 100) : ℤ) / 100

/-- One entry of the aggregate in the exact idealization: average of the
collected ranks rounded to two decimals, and the number of rankings. -/
def entryOf (p : String × List ℕ) : AggregateRanking :=
  ⟨p.1, round2 ((p.2.sum : ℚ) / (p.2.length : ℚ)), p.2.length⟩

/-- Stable insertion step for the ascending sort by averageRank. -/
def insertByRank (x : AggregateRanking) : List AggregateRanking → List AggregateRanking
  | [] => [x]
  | y :: ys => if x.averageRank ≤ y.averageRank then x :: y :: ys else y :: insertByRank x ys

/-- Stable ascending sort by averageRank, modelling the JS stable
Array.prototype.sort with comparator a.averageRank - b.averageRank. -/
def sortByRank : List AggregateRanking → List AggregateRanking
  | [] => []
  | x :: xs => insertByRank x (sortByRank xs)

/-- Exact-arithmetic idealization of calculateAggregateRankings
(pipeline.ts), used by the permutation-invariance analysis; the
bit-faithful embedding is calculateAggregateRankingsFP below. -/
def calculateAggregateRankings (stage2 : List Stage2Result) (labels : LabelMap) :
    List AggregateRanking :=
  sortByRank ((collectPositions stage2 labels).map entryOf)

/-! ## Binary64 rounding (JS Number arithmetic) -/

/-- Round to the nearest integer, ties to even. -/
def roundTiesEven (x : ℚ) : ℤ :=
  if x - ⌊x⌋ < 1/2 then ⌊x⌋
  else if 1/2 < x - ⌊x⌋ then ⌊x⌋ + 1
  else if Even ⌊x⌋ then ⌊x⌋ else ⌊x⌋ + 1

/-- Floor of the base-2 logarithm of a positive rational. -/
def qlog2 (q : ℚ) : ℤ :=
  if q < 2 ^ ((Nat.log2 q.num.toNat : ℤ) - (Nat.log2 q.den : ℤ))
  then (Nat.log2 q.num.toNat : ℤ) - (Nat.log2 q.den : ℤ) - 1
  else (Nat.log2 q.num.toNat : ℤ) - (Nat.log2 q.den : ℤ)

/-- Binary64 rounding of a positive rational: scale into the 53-bit
significand range of its binade, round ties-to-even, scale back. -/
def flPos (q : ℚ) : ℚ :=
  (roundTiesEven (q * 2 ^ (52 - qlog2 q)) : ℚ) * 2 ^ (qlog2 q - 52)

/-- Binary64 (JS Number) rounding of an exact rational: round to nearest,
ties to even, with unbounded exponent range. This agrees with IEEE 754
binary64 on every value in the normal finite range, which covers every
value the embedded arithmetic can produce from array-realizable inputs
(all magnitudes lie well inside [2 ^ (-1022), 2 ^ 1023]). -/
def fl (q : ℚ) : ℚ :=
  if q = 0 then 0 else if 0 < q then flPos q else -flPos (-q)

theorem qlog2_spec {q : ℚ} (hq : 0 < q) :
    2 ^ qlog2 q ≤ q ∧ q < 2 ^ (qlog2 q + 1) := by
  have hnum : (0 : ℤ) < q.num := Rat.num_pos.mpr hq
  have hden : 0 < q.den := q.pos
  set a := q.num.toNat with ha
  set la := Nat.log2 a with hla
  set lb := Nat.log2 q.den with hlb
  have hane : a ≠ 0 := by
    simp only [ha]
    omega
  have hbne : q.den ≠ 0 := by omega
  have hcast : ((a : ℚ)) = (q.num : ℚ) := by
    have h1 : ((a : ℤ)) = q.num := by
      simp only [ha]
      exact Int.toNat_of_nonneg (le_of_lt hnum)
    exact_mod_cast h1
  have hqeq : q = (a : ℚ) / (q.den : ℚ) := by
    rw [hcast, Rat.num_div_den]
  have ha1 : ((2 ^ la : ℕ) : ℚ) ≤ (a : ℚ) := by
    exact_mod_cast Nat.log2_self_le hane
  have ha2 : ((a : ℚ)) < ((2 ^ (la + 1) : ℕ) : ℚ) := by
    exact_mod_cast Nat.lt_log2_self
  have hb1 : ((2 ^ lb : ℕ) : ℚ) ≤ (q.den : ℚ) := by
    exact_mod_cast Nat.log2_self_le hbne
  have hb2 : ((q.den : ℚ)) < ((2 ^ (lb + 1) : ℕ) : ℚ) := by
    exact_mod_cast Nat.lt_log2_self
  have hbpos : (0 : ℚ) < (q.den : ℚ) := by exact_mod_cast hden
  have hapos : (0 : ℚ) < (a : ℚ) := by
    have : 0 < a := Nat.pos_of_ne_zero hane
    exact_mod_cast this
  have hlow : (2 : ℚ) ^ ((la : ℤ) - (lb : ℤ) - 1) < q := by
    have s1 : (2 : ℚ) ^ ((la : ℤ) - (lb : ℤ) - 1) =
        ((2 ^ la : ℕ) : ℚ) / ((2 ^ (lb + 1) : ℕ) : ℚ) := by
      push_cast
      rw [← zpow_natCast (2 : ℚ) la, ← zpow_natCast (2 : ℚ) (lb + 1), ← zpow_sub₀ (by norm_num)]
      congr 1
      push_cast
      ring
    rw [s1, hqeq]
    calc ((2 ^ la : ℕ) : ℚ) / ((2 ^ (lb + 1) : ℕ) : ℚ)
        < ((2 ^ la : ℕ) : ℚ) / (q.den : ℚ) := by
          apply div_lt_div_of_pos_left (by positivity) hbpos hb2
      _ ≤ (a : ℚ) / (q.den : ℚ) := by
          exact (div_le_div_iff_of_pos_right hbpos).mpr ha1
  have hhigh : q < (2 : ℚ) ^ ((la : ℤ) - (lb : ℤ) + 1) := by
    have s1 : (2 : ℚ) ^ ((la : ℤ) - (lb : ℤ) + 1) =
        ((2 ^ (la + 1) : ℕ) : ℚ) / ((2 ^ lb : ℕ) : ℚ) := by
      push_cast
      rw [← zpow_natCast (2 : ℚ) (la + 1), ← zpow_natCast (2 : ℚ) lb, ← zpow_sub₀ (by norm_num)]
      congr 1
      push_cast
      ring
    rw [s1, hqeq]
    calc (a : ℚ) / (q.den : ℚ)
        < ((2 ^ (la + 1) : ℕ) : ℚ) / (q.den : ℚ) := by
          exact div_lt_div_of_pos_right ha2 hbpos
      _ ≤ ((2 ^ (la + 1) : ℕ) : ℚ) / ((2 ^ lb : ℕ) : ℚ) := by
          apply div_le_div_of_nonneg_left (by positivity) (by positivity) hb1
  unfold qlog2
  rw [← ha, ← hla, ← hlb]
  split
  · rename_i hcond
    refine ⟨le_of_lt hlow, ?_⟩
    have he : ((la : ℤ) - (lb : ℤ) - 1 + 1) = (la : ℤ) - (lb : ℤ) := by ring
    rw [he]
    exact hcond
  · rename_i hcond
    push_neg at hcond
    exact ⟨hcond, hhigh⟩


theorem qlog2_eq {q : ℚ} {e : ℤ} (h1 : 2 ^ e ≤ q) (h2 : q < 2 ^ (e + 1)) :
    qlog2 q = e := by
  have hq : 0 < q := lt_of_lt_of_le (zpow_pos (by norm_num) e) h1
  obtain ⟨s1, s2⟩ := qlog2_spec hq
  by_contra hne
  rcases lt_or_gt_of_ne hne with hlt | hgt
  · have : (2 : ℚ) ^ (qlog2 q + 1) ≤ 2 ^ e :=
      zpow_le_zpow_right₀ (by norm_num) (by omega)
    linarith
  · have : (2 : ℚ) ^ (e + 1) ≤ 2 ^ (qlog2 q) :=
      zpow_le_zpow_right₀ (by norm_num) (by omega)
    linarith

theorem flPos_eval {q : ℚ} {e : ℤ} (h1 : 2 ^ e ≤ q) (h2 : q < 2 ^ (e + 1)) :
    flPos q = (roundTiesEven (q * 2 ^ (52 - e)) : ℚ) * 2 ^ (e - 52) := by
  rw [flPos, qlog2_eq h1 h2]

theorem roundTiesEven_intCast (m : ℤ) : roundTiesEven (m : ℚ) = m := by
  unfold roundTiesEven
  rw [Int.floor_intCast]
  norm_num

theorem roundTiesEven_of_lt_half {x : ℚ} {n : ℤ} (h1 : (n : ℚ) ≤ x)
    (h2 : x < n + 1/2) : roundTiesEven x = n := by
  have hf : ⌊x⌋ = n := Int.floor_eq_iff.mpr ⟨h1, by linarith⟩
  unfold roundTiesEven
  rw [hf, if_pos (by linarith)]

theorem roundTiesEven_of_gt_half {x : ℚ} {n : ℤ} (h1 : (n : ℚ) + 1/2 < x)
    (h2 : x < n + 1) : roundTiesEven x = n + 1 := by
  have hf : ⌊x⌋ = n := Int.floor_eq_iff.mpr ⟨by linarith, by linarith⟩
  unfold roundTiesEven
  rw [hf, if_neg (by linarith), if_pos (by linarith)]

/-- Concrete evaluation of fl, rounding down within the binade. -/
theorem fl_eval_down {q : ℚ} {e : ℤ} {n : ℤ} (h1 : 2 ^ e ≤ q) (h2 : q < 2 ^ (e + 1))
    (h3 : (n : ℚ) ≤ q * 2 ^ (52 - e)) (h4 : q * 2 ^ (52 - e) < n + 1/2) :
    fl q = (n : ℚ) * 2 ^ (e - 52) := by
  have hq : 0 < q := lt_of_lt_of_le (zpow_pos (by norm_num) e) h1
  rw [fl, if_neg (ne_of_gt hq), if_pos hq, flPos_eval h1 h2,
    roundTiesEven_of_lt_half h3 h4]

/-- Concrete evaluation of fl, rounding up within the binade. -/
theorem fl_eval_up {q : ℚ} {e : ℤ} {n : ℤ} (h1 : 2 ^ e ≤ q) (h2 : q < 2 ^ (e + 1))
    (h3 : (n : ℚ) + 1/2 < q * 2 ^ (52 - e)) (h4 : q * 2 ^ (52 - e) < n + 1) :
    fl q = ((n + 1 : ℤ) : ℚ) * 2 ^ (e - 52) := by
  have hq : 0 < q := lt_of_lt_of_le (zpow_pos (by norm_num) e) h1
  rw [fl, if_neg (ne_of_gt hq), if_pos hq, flPos_eval h1 h2,
    roundTiesEven_of_gt_half h3 h4]

/-- Naturals below 2 ^ 53 are binary64-exact. -/
theorem fl_natCast {n : ℕ} (h : n < 2 ^ 53) : fl (n : ℚ) = n := by
  rcases Nat.eq_zero_or_pos n with rfl | hn
  · simp [fl]
  · have hq : (0 : ℚ) < n := by exact_mod_cast hn
    have hne : n ≠ 0 := by omega
    have e1 : (2 : ℚ) ^ ((Nat.log2 n : ℤ)) ≤ n := by
      rw [zpow_natCast]
      exact_mod_cast Nat.log2_self_le hne
    have e2 : (n : ℚ) < 2 ^ ((Nat.log2 n : ℤ) + 1) := by
      rw [show ((Nat.log2 n : ℤ) + 1) = ((Nat.log2 n + 1 : ℕ) : ℤ) by push_cast; ring,
        zpow_natCast]
      exact_mod_cast Nat.lt_log2_self
    have hle : Nat.log2 n ≤ 52 := by
      have := (Nat.log2_lt hne).mpr h
      omega
    rw [fl, if_neg (ne_of_gt hq), if_pos hq, flPos_eval e1 e2]
    rw [show ((52 : ℤ) - (Nat.log2 n : ℤ)) = ((52 - Nat.log2 n : ℕ) : ℤ) by omega,
      zpow_natCast]
    rw [show ((n : ℚ) * 2 ^ (52 - Nat.log2 n : ℕ)) =
        (((n * 2 ^ (52 - Nat.log2 n : ℕ) : ℕ) : ℤ) : ℚ) by push_cast; ring]
    rw [roundTiesEven_intCast]
    rw [show ((Nat.log2 n : ℤ) - 52) = -((52 - Nat.log2 n : ℕ) : ℤ) by omega]
    rw [zpow_neg, zpow_natCast]
    push_cast
    have hpow : ((2 : ℚ)) ^ (52 - Nat.log2 n : ℕ) ≠ 0 := by positivity
    field_simp

/-! ## The JS number operations of the aggregation -/

/-- JS double addition: exact sum, then binary64 rounding. -/
def jsAdd (a b : ℚ) : ℚ := fl (a + b)

/-- JS double multiplication. -/
def jsMul (a b : ℚ) : ℚ := fl (a * b)

/-- JS double division (every division the aggregation performs has a
nonzero divisor: an array length of a nonempty array, or the literal 100). -/
def jsDiv (a b : ℚ) : ℚ := fl (a / b)

/-- A JS array length as a Number. -/
def jsOfNat (n : ℕ) : ℚ := fl n

/-- Math.round (ECMAScript): the integral Number nearest to the argument,
half toward positive infinity; the Mathlib round is exactly this rule. -/
def jsMathRound (q : ℚ) : ℚ := (round q : ℤ)

/-- arr.reduce((a, b) => a + b, 0) over the collected ranks. -/
def sumRanks (l : List ℕ) : ℚ := l.foldl (fun acc (r : ℕ) => jsAdd acc (r : ℚ)) 0

/-- Math.round((arr.reduce((a, b) => a + b, 0) / arr.length) * 100) / 100,
computed in binary64. -/
def fpAverage (l : List ℕ) : ℚ :=
  jsDiv (jsMathRound (jsMul (jsDiv (sumRanks l) (jsOfNat l.length)) 100)) 100

theorem jsAdd_nat (a b : ℕ) (h : a + b < 2 ^ 53) :
    jsAdd (a : ℚ) (b : ℚ) = ((a + b : ℕ) : ℚ) := by
  rw [jsAdd, show ((a : ℚ) + (b : ℚ)) = ((a + b : ℕ) : ℚ) by push_cast; ring,
    fl_natCast h]

theorem foldl_jsAdd_exact : ∀ (l : List ℕ) (acc : ℕ), acc + l.sum < 2 ^ 53 →
    l.foldl (fun x (r : ℕ) => jsAdd x (r : ℚ)) (acc : ℚ) = ((acc + l.sum : ℕ) : ℚ) := by
  intro l
  induction l with
  | nil => intro acc _; simp
  | cons r t ih =>
    intro acc h
    rw [List.foldl_cons, jsAdd_nat acc r (by simp [List.sum_cons] at h; omega)]
    rw [ih (acc + r) (by simp [List.sum_cons] at h; omega)]
    rw [show acc + r + t.sum = acc + (r :: t).sum by simp [List.sum_cons]; omega]

/-- Integer rank sums below 2 ^ 53 are computed exactly by the double
reduce. -/
theorem sumRanks_exact (l : List ℕ) (h : l.sum < 2 ^ 53) :
    sumRanks l = (l.sum : ℚ) := by
  have h0 := foldl_jsAdd_exact l 0 (by omega)
  simpa [sumRanks] using h0

/-! ## The bit-faithful aggregation (pipeline.ts, calculateAggregateRankings)

The record-building loop including the falsy-agent guard, and the average
computed step by step in binary64, exactly as the source evaluates
Math.round((arr.reduce((a, b) => a + b, 0) / arr.length) * 100) / 100. -/

/-- One aggregate entry with the binary64 average. -/
def entryOfFP (p : String × List ℕ) : AggregateRanking :=
  ⟨p.1, fpAverage p.2, p.2.length⟩

/-- The nested forEach of calculateAggregateRankings with the
`if (!agent) return` guard: a label missing from the map, or mapped to the
falsy empty string, contributes nothing. -/
def collectPositionsFP (stage2 : List Stage2Result) (labels : LabelMap) :
    List (String × List ℕ) :=
  stage2.foldl
    (fun pos res =>
      res.parsedRanking.enum.foldl
        (fun pos il =>
          match lookupLabel labels il.2 with
          | some agent => if agent = "" then pos else pushRank pos agent (il.1 + 1)
          | none => pos)
        pos)
    []

/-- Bit-faithful embedding of calculateAggregateRankings (pipeline.ts):
positions with the falsy guard, entries with binary64 averages, stable
ascending sort. -/
def calculateAggregateRankingsFP (stage2 : List Stage2Result) (labels : LabelMap) :
    List AggregateRanking :=
  sortByRank ((collectPositionsFP stage2 labels).map entryOfFP)

/-! ### Concrete binary64 averages -/

theorem jsOfNat_eval {n : ℕ} (h : n < 2 ^ 53) : jsOfNat n = n := by
  rw [jsOfNat, fl_natCast h]

theorem fpAverage_121 : fpAverage [1, 2, 1] = 5989787504402760 * (2:ℚ) ^ (-52 : ℤ) := by
  rw [fpAverage]
  rw [show (([1, 2, 1] : List ℕ).length) = 3 from rfl]
  rw [sumRanks_exact _ (by decide), show (([1, 2, 1] : List ℕ).sum) = 4 from by decide]
  rw [jsOfNat_eval (by norm_num)]
  rw [show jsDiv ((4 : ℕ) : ℚ) ((3 : ℕ) : ℚ) = 6004799503160661 * (2:ℚ) ^ (-52 : ℤ) by
    rw [jsDiv]
    have h := fl_eval_down (q := ((4:ℕ):ℚ) / ((3:ℕ):ℚ)) (e := 0) (n := 6004799503160661)
      (by norm_num) (by norm_num) (by norm_num) (by norm_num)
    rw [h]
    norm_num]
  rw [show jsMul (6004799503160661 * (2:ℚ) ^ (-52 : ℤ)) 100 =
      4691249611844266 * (2:ℚ) ^ (-45 : ℤ) by
    rw [jsMul]
    have h := fl_eval_down (q := 6004799503160661 * (2:ℚ) ^ (-52 : ℤ) * 100)
      (e := 7) (n := 4691249611844266)
      (by norm_num) (by norm_num) (by norm_num) (by norm_num)
    rw [h]
    norm_num]
  rw [show jsMathRound (4691249611844266 * (2:ℚ) ^ (-45 : ℤ)) = (133 : ℚ) by
    rw [jsMathRound, round_eq]
    rw [show ⌊4691249611844266 * (2:ℚ) ^ (-45 : ℤ) + 1 / 2⌋ = (133 : ℤ) by
      rw [Int.floor_eq_iff]
      constructor
      · norm_num
      · norm_num]
    norm_num]
  rw [jsDiv]
  have h := fl_eval_up (q := (133 : ℚ) / 100) (e := 0) (n := 5989787504402759)
    (by norm_num) (by norm_num) (by norm_num) (by norm_num)
  rw [h]
  norm_num


theorem fpAverage_213 : fpAverage [2, 1, 3] = 2 := by
  rw [fpAverage]
  rw [show (([2, 1, 3] : List ℕ).length) = 3 from rfl]
  rw [sumRanks_exact _ (by decide), show (([2, 1, 3] : List ℕ).sum) = 6 from by decide]
  rw [jsOfNat_eval (by norm_num)]
  rw [show jsDiv ((6 : ℕ) : ℚ) ((3 : ℕ) : ℚ) = 2 by
    rw [jsDiv, show (((6 : ℕ) : ℚ) / ((3 : ℕ) : ℚ)) = ((2 : ℕ) : ℚ) by norm_num,
      fl_natCast (by norm_num)]
    norm_num]
  rw [show jsMul (2 : ℚ) 100 = 200 by
    rw [jsMul, show ((2 : ℚ) * 100) = ((200 : ℕ) : ℚ) by norm_num,
      fl_natCast (by norm_num)]
    norm_num]
  rw [show jsMathRound (200 : ℚ) = (200 : ℚ) by
    rw [jsMathRound, round_eq]
    rw [show ⌊(200 : ℚ) + 1 / 2⌋ = (200 : ℤ) by
      rw [Int.floor_eq_iff]
      constructor
      · norm_num
      · norm_num]
    norm_num]
  rw [jsDiv, show ((200 : ℚ) / 100) = ((2 : ℕ) : ℚ) by norm_num,
    fl_natCast (by norm_num)]
  norm_num

theorem fpAverage_332 : fpAverage [3, 3, 2] = 6012305502539612 * (2:ℚ) ^ (-51 : ℤ) := by
  rw [fpAverage]
  rw [show (([3, 3, 2] : List ℕ).length) = 3 from rfl]
  rw [sumRanks_exact _ (by decide), show (([3, 3, 2] : List ℕ).sum) = 8 from by decide]
  rw [jsOfNat_eval (by norm_num)]
  rw [show jsDiv ((8 : ℕ) : ℚ) ((3 : ℕ) : ℚ) = 6004799503160661 * (2:ℚ) ^ (-51 : ℤ) by
    rw [jsDiv]
    have h := fl_eval_down (q := ((8:ℕ):ℚ) / ((3:ℕ):ℚ)) (e := 1) (n := 6004799503160661)
      (by norm_num) (by norm_num) (by norm_num) (by norm_num)
    rw [h]
    norm_num]
  rw [show jsMul (6004799503160661 * (2:ℚ) ^ (-51 : ℤ)) 100 =
      4691249611844266 * (2:ℚ) ^ (-44 : ℤ) by
    rw [jsMul]
    have h := fl_eval_down (q := 6004799503160661 * (2:ℚ) ^ (-51 : ℤ) * 100)
      (e := 8) (n := 4691249611844266)
      (by norm_num) (by norm_num) (by norm_num) (by norm_num)
    rw [h]
    norm_num]
  rw [show jsMathRound (4691249611844266 * (2:ℚ) ^ (-44 : ℤ)) = (267 : ℚ) by
    rw [jsMathRound, round_eq]
    rw [show ⌊4691249611844266 * (2:ℚ) ^ (-44 : ℤ) + 1 / 2⌋ = (267 : ℤ) by
      rw [Int.floor_eq_iff]
      constructor
      · norm_num
      · norm_num]
    norm_num]
  rw [jsDiv]
  have h := fl_eval_down (q := (267 : ℚ) / 100) (e := 1) (n := 6012305502539612)
    (by norm_num) (by norm_num) (by norm_num) (by norm_num)
  rw [h]
  norm_num

/-- The binary64 value the scenario reports as 1.33. -/
theorem fl_133_100 : fl (133/100) = 5989787504402760 * (2:ℚ) ^ (-52 : ℤ) := by
  have h := fl_eval_up (q := (133 : ℚ) / 100) (e := 0) (n := 5989787504402759)
    (by norm_num) (by norm_num) (by norm_num) (by norm_num)
  rw [h]
  norm_num

/-- The binary64 value the scenario reports as 2.67. -/
theorem fl_267_100 : fl (267/100) = 6012305502539612 * (2:ℚ) ^ (-51 : ℤ) := by
  have h := fl_eval_down (q := (267 : ℚ) / 100) (e := 1) (n := 6012305502539612)
    (by norm_num) (by norm_num) (by norm_num) (by norm_num)
  rw [h]
  norm_num

/-! ## Agent status lifecycle (agents.ts)

The event handlers of callAgent and the kill request of
runAgentsInteractive are modelled as pure transition functions on a
snapshot of the mutable agent state (its status and whether a process
object is attached). -/

/-- Agent status union (types.ts, AgentStatus). -/
inductive AgentStatus where
  | pending
  | running
  | completed
  | error
  | timeout
  | killed
deriving DecidableEq, Repr

/-- The literal text of a status, as interpolated into JS templates. -/
def statusText : AgentStatus → String
  | .pending => "pending"
  | .running => "running"
  | .completed => "completed"
  | .error => "error"
  | .timeout => "timeout"
  | .killed => "killed"

/-- The part of the mutable AgentState relevant to status transitions. -/
structure AgentSnapshot where
  status : AgentStatus
  hasProcess : Bool
deriving DecidableEq, Repr

/-- Terminal statuses: completed, error, timeout, killed. -/
def isTerminal (st : AgentStatus) : Bool :=
  st = AgentStatus.completed || st = AgentStatus.error ||
  st = AgentStatus.timeout || st = AgentStatus.killed

/-- The close handler of callAgent (agents.ts): if the status is already
killed or timeout it resolves without touching it; otherwise exit code 0
means completed and anything else (including a null code) means error. -/
def handleClose (s : AgentSnapshot) (code : Option Int) : AgentSnapshot :=
  if s.status = AgentStatus.killed ∨ s.status = AgentStatus.timeout then s
  else { s with status := if code = some 0 then AgentStatus.completed else AgentStatus.error }

/-- The error handler of callAgent (agents.ts): sets status to error. -/
def handleError (s : AgentSnapshot) : AgentSnapshot :=
  { s with status := AgentStatus.error }

/-- The timeout timer callback of callAgent (agents.ts): only transitions an
agent that still has a process attached and is still running. -/
def fireTimeout (s : AgentSnapshot) : AgentSnapshot :=
  if s.hasProcess ∧ s.status = AgentStatus.running then
    { s with status := AgentStatus.timeout }
  else s

/-- The killAgent closure of runAgentsInteractive (agents.ts): only
transitions an agent that has a process and is still running. -/
def killRequest (s : AgentSnapshot) (reason : AgentStatus) : AgentSnapshot :=
  if s.hasProcess ∧ s.status = AgentStatus.running then
    { s with status := reason }
  else s

/-! ## Chairman synthesis with fallback (pipeline.ts)

runChairman and the single-pass fallback logic of runEnhancedPipeline.
The asynchronous callAgent is abstracted by an outcome oracle mapping an
agent name to the terminal state of its invocation; the second component
of stage3WithFallback instruments the control flow with the ordered list
of chairman invocations actually performed, which the pure result does
not show. -/

/-- Stage 3 result record (types.ts, Stage3Result). -/
structure Stage3Result where
  agent : String
  response : String
deriving DecidableEq, Repr

/-- Terminal state of one callAgent invocation: final status and collected
stdout chunks. -/
structure CallOutcome where
  status : AgentStatus
  stdoutChunks : List String
deriving Repr

/-- The response text computed by runChairman (pipeline.ts): joined trimmed
stdout on completion, otherwise the failure sentinel with the status. -/
def chairmanResponseText (o : CallOutcome) : String :=
  if o.status = AgentStatus.completed then jsTrim (String.join o.stdoutChunks)
  else "Error from chairman (" ++ statusText o.status ++ ")"

/-- Shallow embedding of runChairman (pipeline.ts): the result's agent is
always the invoked chairman's name. -/
def runChairmanM (outcome : String → CallOutcome) (chairman : String) : Stage3Result :=
  ⟨chairman, chairmanResponseText (outcome chairman)⟩

/-- Shallow embedding of isChairmanFailure (pipeline.ts): JS startsWith. -/
def isChairmanFailure (response : String) : Bool :=
  "Error from chairman".data.isPrefixOf response.data

/-- The single-pass chairman block of runEnhancedPipeline (pipeline.ts,
compete mode): run the chairman; if the response is the failure sentinel and
a fallback is configured, run the fallback once and keep its result, with no
further retry. The second component lists the chairman invocations made, in
order. -/
def stage3WithFallback (outcome : String → CallOutcome) (chairman : String)
    (fallback : Option String) : Stage3Result × List String :=
  let s3 := runChairmanM outcome chairman
  if isChairmanFailure s3.response then
    match fallback with
    | some fb => (runChairmanM outcome fb, [chairman, fb])
    | none => (s3, [chairman])
  else (s3, [chairman])

/-! ## JSON values and JSON.parse

Used by extractFallbackFromOutlines and loadCheckpoint. Numbers are
modelled by exact rationals (JSON.parse computes the nearest double; the
values appearing in this development are all exactly representable).
JS strings are UTF-16; a lone surrogate in a string literal is modelled by
the replacement character U+FFFD, since Lean chars are Unicode scalars. -/

inductive JsonValue where
  | null
  | bool (b : Bool)
  | num (q : ℚ)
  | str (s : String)
  | arr (elems : List JsonValue)
  | obj (fields : List (String × JsonValue))
deriving Repr

/-- JSON insignificant whitespace (space, tab, LF, CR). -/
def jsonWS (c : Char) : Bool := c == ' ' || c == '\t' || c == '\n' || c == '\r'

/-- JS object property creation with insertion-order preservation: a
duplicate key keeps its first position but takes the new value. -/
def objInsert (fields : List (String × JsonValue)) (k : String) (v : JsonValue) :
    List (String × JsonValue) :=
  if fields.any (fun p => p.1 == k) then
    fields.map (fun p => if p.1 == k then (p.1, v) else p)
  else fields ++ [(k, v)]

def hexDigit? (c : Char) : Option ℕ :=
  if '0' ≤ c ∧ c ≤ '9' then some (c.toNat - 48)
  else if 'a' ≤ c ∧ c ≤ 'f' then some (c.toNat - 87)
  else if 'A' ≤ c ∧ c ≤ 'F' then some (c.toNat - 55)
  else none

def hex4? (a b c d : Char) : Option ℕ := do
  let x ← hexDigit? a
  let y ← hexDigit? b
  let z ← hexDigit? c
  let w ← hexDigit? d
  pure (((x * 16 + y) * 16 + z) * 16 + w)

/-- Unicode scalar for a code point, replacement character for surrogates. -/
def charOfCode (n : ℕ) : Char :=
  if n < 0xD800 ∨ (0xDFFF < n ∧ n < 0x110000) then Char.ofNat n else '�'

/-- Single-character JSON escapes. -/
def escChar? : Char → Option Char
  | '"' => some '"'
  | '\\' => some '\\'
  | '/' => some '/'
  | 'b' => some '\x08'
  | 'f' => some '\x0c'
  | 'n' => some '\n'
  | 'r' => some '\r'
  | 't' => some '\t'
  | _ => none

/-- Lookahead for the low half of a surrogate pair after a high half with
code n: on success returns the combined scalar and the suffix after the
second escape. -/
def surrogatePair? (n : ℕ) (t : List Char) : Option (Char × List Char) :=
  match t with
  | '\\' :: 'u' :: k1 :: k2 :: k3 :: k4 :: t2 =>
    (match hex4? k1 k2 k3 k4 with
     | some m =>
       if 0xDC00 ≤ m ∧ m ≤ 0xDFFF then
         some (charOfCode (0x10000 + (n - 0xD800) * 0x400 + (m - 0xDC00)), t2)
       else none
     | none => none)
  | _ => none

/-- Fueled body of a JSON string after the opening quote: returns the
decoded characters and the suffix after the closing quote. Surrogate pairs
in backslash-u escapes are combined; a lone surrogate decodes to U+FFFD.
The fuel only bounds recursion depth; parseJString supplies enough. -/
def parseJStringBody : ℕ → List Char → Option (List Char × List Char)
  | 0, _ => none
  | _, [] => none
  | _ + 1, '"' :: t => some ([], t)
  | fuel + 1, '\\' :: 'u' :: h1 :: h2 :: h3 :: h4 :: t =>
    (match hex4? h1 h2 h3 h4 with
     | none => none
     | some n =>
       if 0xD800 ≤ n ∧ n ≤ 0xDBFF then
         match surrogatePair? n t with
         | some (ch, t2) => (parseJStringBody fuel t2).map (fun p => (ch :: p.1, p.2))
         | none => (parseJStringBody fuel t).map (fun p => ('�' :: p.1, p.2))
       else (parseJStringBody fuel t).map (fun p => (charOfCode n :: p.1, p.2)))
  | fuel + 1, '\\' :: c :: t =>
    (match escChar? c with
     | some e => (parseJStringBody fuel t).map (fun p => (e :: p.1, p.2))
     | none => none)
  | fuel + 1, c :: t =>
    if c.toNat < 0x20 then none
    else (parseJStringBody fuel t).map (fun p => (c :: p.1, p.2))

/-- Body of a JSON string with sufficient fuel. -/
def parseJString (t : List Char) : Option (List Char × List Char) :=
  parseJStringBody (t.length + 1) t

def digitsToNat (l : List Char) : ℕ := l.foldl (fun a c => a * 10 + (c.toNat - 48)) 0

/-- JSON number grammar: optional minus, integer part without leading
zeros, optional fraction, optional exponent; returns the exact rational
value and the unconsumed suffix. Malformed tails (such as a bare dot) are
left unconsumed, which makes the surrounding grammar reject them exactly
where JSON.parse does. -/
def parseJNumber (s : List Char) : Option (ℚ × List Char) :=
  let signAndRest : Bool × List Char :=
    match s with
    | '-' :: t => (true, t)
    | _ => (false, s)
  let intPart : Option (List Char × List Char) :=
    match signAndRest.2 with
    | '0' :: t => some (['0'], t)
    | c :: t =>
      if isDigit c then some (c :: t.takeWhile isDigit, t.drop (t.takeWhile isDigit).length)
      else none
    | [] => none
  match intPart with
  | none => none
  | some (ip, s2) =>
    let fracAndRest : List Char × List Char :=
      match s2 with
      | '.' :: t =>
        if (t.takeWhile isDigit).isEmpty then ([], s2)
        else (t.takeWhile isDigit, t.drop (t.takeWhile isDigit).length)
      | _ => ([], s2)
    let fp := fracAndRest.1
    let s3 := fracAndRest.2
    let expAndRest : Int × List Char :=
      match s3 with
      | c :: t =>
        if c = 'e' ∨ c = 'E' then
          match t with
          | '+' :: t2 =>
            if (t2.takeWhile isDigit).isEmpty then (0, s3)
            else ((digitsToNat (t2.takeWhile isDigit) : Int), t2.drop (t2.takeWhile isDigit).length)
          | '-' :: t2 =>
            if (t2.takeWhile isDigit).isEmpty then (0, s3)
            else (-(digitsToNat (t2.takeWhile isDigit) : Int), t2.drop (t2.takeWhile isDigit).length)
          | _ =>
            if (t.takeWhile isDigit).isEmpty then (0, s3)
            else ((digitsToNat (t.takeWhile isDigit) : Int), t.drop (t.takeWhile isDigit).length)
        else (0, s3)
      | [] => (0, s3)
    let mant : ℚ := (digitsToNat (ip ++ fp) : ℚ) / (10 : ℚ) ^ fp.length
    let value : ℚ := (if signAndRest.1 then -mant else mant) * (10 : ℚ) ^ expAndRest.1
    some (value, expAndRest.2)

mutual

/-- Fueled JSON value grammar. Fuel only bounds nesting bookkeeping; the
public entry point jsonParse supplies enough fuel for any input. -/
def parseJValue : ℕ → List Char → Option (JsonValue × List Char)
  | 0, _ => none
  | fuel + 1, s =>
    match s.dropWhile jsonWS with
    | 'n' :: 'u' :: 'l' :: 'l' :: t => some (.null, t)
    | 't' :: 'r' :: 'u' :: 'e' :: t => some (.bool true, t)
    | 'f' :: 'a' :: 'l' :: 's' :: 'e' :: t => some (.bool false, t)
    | '"' :: t => (parseJString t).map (fun p => (.str (String.mk p.1), p.2))
    | '[' :: t =>
      (match t.dropWhile jsonWS with
       | ']' :: t2 => some (.arr [], t2)
       | _ => (parseJItems fuel t).map (fun p => (.arr p.1, p.2)))
    | '\x7b' :: t =>
      (match t.dropWhile jsonWS with
       | '\x7d' :: t2 => some (.obj [], t2)
       | _ => (parseJFields fuel [] t).map (fun p => (.obj p.1, p.2)))
    | rest => (parseJNumber rest).map (fun p => (.num p.1, p.2))

/-- Comma-separated element list of a JSON array, up to the closing bracket. -/
def parseJItems : ℕ → List Char → Option (List JsonValue × List Char)
  | 0, _ => none
  | fuel + 1, s =>
    match parseJValue fuel s with
    | none => none
    | some (v, rest) =>
      match rest.dropWhile jsonWS with
      | ',' :: t => (parseJItems fuel t).map (fun p => (v :: p.1, p.2))
      | ']' :: t => some ([v], t)
      | _ => none

/-- Comma-separated member list of a JSON object, up to the closing brace,
accumulating fields with JS duplicate-key semantics. -/
def parseJFields : ℕ → List (String × JsonValue) → List Char →
    Option (List (String × JsonValue) × List Char)
  | 0, _, _ => none
  | fuel + 1, acc, s =>
    match s.dropWhile jsonWS with
    | '"' :: t =>
      (match parseJString t with
       | none => none
       | some (key, rest) =>
         match rest.dropWhile jsonWS with
         | ':' :: t2 =>
           (match parseJValue fuel t2 with
            | none => none
            | some (v, rest2) =>
              match rest2.dropWhile jsonWS with
              | ',' :: t3 => parseJFields fuel (objInsert acc (String.mk key) v) t3
              | '\x7d' :: t3 => some (objInsert acc (String.mk key) v, t3)
              | _ => none)
         | _ => none)
    | _ => none

end

/-- Shallow embedding of JSON.parse: parse one value and require only
whitespace after it; any failure is the thrown-and-caught case, none. -/
def jsonParse (s : String) : Option JsonValue :=
  match parseJValue (2 * s.data.length + 2) s.data with
  | some (v, rest) => if (rest.dropWhile jsonWS).isEmpty then some v else none
  | none => none

/-! ## JS operations on parsed values -/

/-- JS property read (obj[key]): object fields, array and string indexing
with canonical numeric keys; undefined is none. -/
def jsProp : JsonValue → String → Option JsonValue
  | .obj fields, k => (fields.find? (fun p => p.1 == k)).map (fun p => p.2)
  | .arr elems, k =>
    ((List.range elems.length).find? (fun i => toString i == k)).bind (fun i => elems[i]?)
  | .str s, k =>
    ((List.range s.data.length).find? (fun i => toString i == k)).bind
      (fun i => (s.data[i]?).map (fun c => JsonValue.str (String.mk [c])))
  | _, _ => none

/-- JS Object.keys: field names of an object, index strings of an array or
string, empty for other primitives (Object.keys(null) throws in JS; that
corner is never reached here and is modelled as empty). -/
def jsKeys : JsonValue → List String
  | .obj fields => fields.map (fun p => p.1)
  | .arr elems => (List.range elems.length).map toString
  | .str s => (List.range s.data.length).map toString
  | _ => []

/-- JS truthiness of a parsed JSON value (NaN cannot arise from JSON.parse). -/
def jsTruthy : JsonValue → Bool
  | .null => false
  | .bool b => b
  | .num q => !(q == 0)
  | .str s => !s.isEmpty
  | .arr _ => true
  | .obj _ => true

/-- Fueled decimal expansion of a fraction (numerator remainder r over
denominator d), most significant digit first. -/
def decDigits : ℕ → ℕ → ℕ → List Char
  | 0, _, _ => []
  | fuel + 1, r, d =>
    if r = 0 then []
    else Char.ofNat (48 + r * 10 / d) :: decDigits fuel (r * 10 % d) d

/-- JS number-to-string coercion, exact for integers and terminating
decimals of at most 20 digits (every value arising in this development);
the general double formatting algorithm is float behaviour and out of
scope. -/
def jsNumToString (q : ℚ) : String :=
  let sign := if q.num < 0 then "-" else ""
  let n := q.num.natAbs
  let frac := decDigits 20 (n % q.den) q.den
  if frac.isEmpty then sign ++ toString (n / q.den)
  else sign ++ toString (n / q.den) ++ "." ++ String.mk frac

mutual

/-- JS string coercion of a parsed JSON value (the + operator on a
string): array elements join with commas, null elements become empty,
objects give the fixed object tag. -/
def jsToString : JsonValue → String
  | .null => "null"
  | .bool b => if b then "true" else "false"
  | .num q => jsNumToString q
  | .str s => s
  | .arr elems => String.intercalate "," (jsElemStrings elems)
  | .obj _ => "[object Object]"

/-- Array element coercion used by Array.prototype.join. -/
def jsElemStrings : List JsonValue → List String
  | [] => []
  | .null :: vs => "" :: jsElemStrings vs
  | v :: vs => jsToString v :: jsElemStrings vs

end

/-! ## Outline fallback (pipeline.ts, extractFallbackFromOutlines)

When Pass 2 produced no complete sections, the source re-creates sections
from the section_outlines section of Pass 1: JSON.parse first, and if that
throws, a per-line regex extraction. The two line regexes are implemented
below with exact JS backtracking semantics (greedy prefixes are forced
wherever no backtrack can succeed; the remaining greedy/lazy choices are
searched in the JS engine's order, first success winning). -/

/-- First match of f over a list, in order. -/
def firstSome {α β : Type} (f : α → Option β) : List α → Option β
  | [] => none
  | a :: l =>
    match f a with
    | some b => some b
    | none => firstSome f l

/-- JS String.prototype.split on the newline character. -/
def splitLines : List Char → List (List Char)
  | [] => [[]]
  | '\n' :: t => [] :: splitLines t
  | c :: t =>
    match splitLines t with
    | [] => [[c]]
    | l :: ls => (c :: l) :: ls

/-- Matcher for the trailing part quote-opt, ws, comma-opt, ws, end of the
first line regex: both options of each optional element are tried, maximal
whitespace munch is forced since whitespace is disjoint from quote and
comma. -/
def tailQuoteCommaEnd (r : List Char) : Bool :=
  (match r with
   | '"' :: t => [t, r]
   | _ => [r]).any
    (fun r1 =>
      let r2 := r1.dropWhile jsWS
      (match r2 with
       | ',' :: t => [t, r2]
       | _ => [r2]).any (fun r3 => (r3.dropWhile jsWS).isEmpty))

/-- Lazy content of the first line regex: the shortest nonempty dot-only
prefix whose remainder matches the trailing part. -/
def lazyContent : List Char → Option (List Char)
  | [] => none
  | c :: t =>
    if isDotChar c then
      if tailQuoteCommaEnd t then some [c]
      else (lazyContent t).map (fun v => c :: v)
    else none

/-- Matcher for the trailing part ws, comma-opt, ws, end after the closing
quote of the second line regex. -/
def commaWsEnd (t : List Char) : Bool :=
  let t1 := t.dropWhile jsWS
  t1.isEmpty ||
    (match t1 with
     | ',' :: t2 => (t2.dropWhile jsWS).isEmpty
     | _ => false)

/-- First line regex of the outline extraction: optional dash and quotes
around a word key, a colon or equals separator, then a lazily matched
value. Greedy elements whose backtracking can never succeed are forced;
the whitespace run before the value and the optional value quote genuinely
backtrack and are searched in JS order (longest whitespace first, quote
consumed first). Returns (key, value). -/
def matchLine1 (line : List Char) : Option (List Char × List Char) :=
  let r1 : List Char :=
    match line.dropWhile jsWS with
    | '-' :: t => t
    | r0 => r0
  let r3 : List Char :=
    match r1.dropWhile jsWS with
    | '"' :: t => t
    | r2 => r2
  let key := r3.takeWhile isWordChar
  if key.isEmpty then none
  else
    let r5 : List Char :=
      match r3.drop key.length with
      | '"' :: t => t
      | r4 => r4
    match r5.dropWhile jsWS with
    | c :: r7 =>
      if c = ':' ∨ c = '=' then
        let maxWs := (r7.takeWhile jsWS).length
        firstSome
          (fun k =>
            let r8 := r7.drop k
            firstSome
              (fun r9 => (lazyContent r9).map (fun v => (key, v)))
              (match r8 with
               | '"' :: t => [t, r8]
               | _ => [r8]))
          ((List.range (maxWs + 1)).reverse)
      else none
    | [] => none

/-- Second line regex of the outline extraction: quoted word key, colon,
whitespace, then a greedily matched quoted value. The greedy value takes
the longest dot-only prefix whose remainder is a quote followed by the
optional-comma tail. Returns (key, value). -/
def matchLine2 (line : List Char) : Option (List Char × List Char) :=
  match line.dropWhile jsWS with
  | '"' :: r1 =>
    let key := r1.takeWhile isWordChar
    if key.isEmpty then none
    else
      match r1.drop key.length with
      | '"' :: ':' :: r3 =>
        (match r3.dropWhile jsWS with
         | '"' :: r5 =>
           let maxDot := (r5.takeWhile isDotChar).length
           firstSome
             (fun k =>
               if k = 0 then none
               else
                 match r5.drop k with
                 | '"' :: t => if commaWsEnd t then some (key, r5.take k) else none
                 | _ => none)
             ((List.range (maxDot + 1)).reverse)
         | _ => none)
      | _ => none
  | _ => none

/-- The Pass 2 section names (prompts.ts, PASS2_SECTIONS). -/
def PASS2_SECTIONS : List String :=
  ["architecture", "data_model", "api_contracts", "user_flows", "security", "deployment"]

/-- The fixed note appended to every fallback placeholder section
(pipeline.ts, extractFallbackFromOutlines). -/
def fallbackNote : String :=
  "\n\n---\n*Note: This is a summary outline. Run with balanced or thorough preset for detailed specifications.*"

/-- The outlines value: JSON.parse of the trimmed content, and on parse
failure the per-line extraction into a fresh object (later lines with the
same key overwrite). -/
def parseOutlines (content : List Char) : JsonValue :=
  match jsonParse (String.mk content) with
  | some v => v
  | none =>
    JsonValue.obj
      ((splitLines content).foldl
        (fun acc line =>
          match matchLine1 line with
          | some (k, v) => objInsert acc (String.mk k) (JsonValue.str (String.mk v))
          | none =>
            match matchLine2 line with
            | some (k, v) => objInsert acc (String.mk k) (JsonValue.str (String.mk v))
            | none => acc)
        [])

/-- Shallow embedding of extractFallbackFromOutlines (pipeline.ts): find the
first section_outlines section of Pass 1; empty or missing gives no
sections; otherwise build outlines and emit, for each expected Pass 2
section name in order, a complete placeholder section whose content is the
truthy outline value followed by the fixed note. -/
def extractFallbackFromOutlines (pass1Sections : List ParsedSection) : List ParsedSection :=
  match pass1Sections.find? (fun s => s.name == "section_outlines") with
  | none => []
  | some outlinesSection =>
    if (jsTrimL outlinesSection.content.data).isEmpty then []
    else
      let outlines := parseOutlines (jsTrimL outlinesSection.content.data)
      if (jsKeys outlines).isEmpty then []
      else
        PASS2_SECTIONS.foldr
          (fun sectionName acc =>
            match jsProp outlines sectionName with
            | some v =>
              if jsTruthy v then
                ParsedSection.mk sectionName (jsToString v ++ fallbackNote) true :: acc
              else acc
            | none => acc)
          []

/-- The fallback trigger of runTwoPassChairman (pipeline.ts): when Pass 2
has no complete section, substitute the outline fallback if it is
nonempty; returns the final Pass 2 sections and the usedFallback flag. -/
def resolvePass2Sections (pass1Sections pass2Sections : List ParsedSection) :
    List ParsedSection × Bool :=
  if ((pass2Sections.filter (fun s => s.complete)).map (fun s => s.name)).isEmpty then
    let fallbackSections := extractFallbackFromOutlines pass1Sections
    if fallbackSections.isEmpty then (pass2Sections, false)
    else (fallbackSections, true)
  else (pass2Sections, false)

/-! ## C6: the two-pass outline fallback -/

/-- Counterexample to C6 as stated: a section_outlines section that is
valid JSON with six keys, but keys other than the expected Pass 2 section
names, produces zero placeholder sections, not six. -/
theorem C6_claim_counterexample :
    jsonParse "\x7b\"k1\":\"a\",\"k2\":\"b\",\"k3\":\"c\",\"k4\":\"d\",\"k5\":\"e\",\"k6\":\"f\"\x7d" =
      some (JsonValue.obj
        [("k1", JsonValue.str "a"), ("k2", JsonValue.str "b"), ("k3", JsonValue.str "c"),
         ("k4", JsonValue.str "d"), ("k5", JsonValue.str "e"), ("k6", JsonValue.str "f")]) ∧
    (jsKeys (JsonValue.obj
        [("k1", JsonValue.str "a"), ("k2", JsonValue.str "b"), ("k3", JsonValue.str "c"),
         ("k4", JsonValue.str "d"), ("k5", JsonValue.str "e"), ("k6", JsonValue.str "f")])).length = 6 ∧
    extractFallbackFromOutlines
      [ParsedSection.mk "section_outlines"
        "\x7b\"k1\":\"a\",\"k2\":\"b\",\"k3\":\"c\",\"k4\":\"d\",\"k5\":\"e\",\"k6\":\"f\"\x7d" true] = [] := by
  refine ⟨?_, rfl, ?_⟩
  · simp +decide [jsonParse, parseJValue, parseJFields, parseJString,
      parseJStringBody, objInsert, jsonWS]
  · simp +decide [extractFallbackFromOutlines, parseOutlines, jsTrimL, jsWS,
      jsonParse, parseJValue, parseJFields, parseJString, parseJStringBody,
      objInsert, jsonWS, jsKeys, jsProp, PASS2_SECTIONS]

/-- C6 amended: when Pass 2 yields zero complete sections, the fallback
parses Pass 1's first section_outlines section; if its trimmed content is a
JSON object whose keys are the six expected Pass 2 section names mapped to
non-empty strings, the fallback produces exactly six placeholder sections,
in the expected order, each complete and ending with the fixed fallback
note, and runTwoPassChairman substitutes them for the Pass 2 sections with
the usedFallback flag set. -/
theorem C6_outline_fallback (pass1Sections : List ParsedSection) (sec : ParsedSection)
    (v1 v2 v3 v4 v5 v6 : String)
    (hfind : pass1Sections.find? (fun s => s.name == "section_outlines") = some sec)
    (hjson : jsonParse (String.mk (jsTrimL sec.content.data)) = some (JsonValue.obj
      [("architecture", JsonValue.str v1), ("data_model", JsonValue.str v2),
       ("api_contracts", JsonValue.str v3), ("user_flows", JsonValue.str v4),
       ("security", JsonValue.str v5), ("deployment", JsonValue.str v6)]))
    (h1 : v1.isEmpty = false) (h2 : v2.isEmpty = false) (h3 : v3.isEmpty = false)
    (h4 : v4.isEmpty = false) (h5 : v5.isEmpty = false) (h6 : v6.isEmpty = false) :
    extractFallbackFromOutlines pass1Sections =
      [ParsedSection.mk "architecture" (v1 ++ fallbackNote) true,
       ParsedSection.mk "data_model" (v2 ++ fallbackNote) true,
       ParsedSection.mk "api_contracts" (v3 ++ fallbackNote) true,
       ParsedSection.mk "user_flows" (v4 ++ fallbackNote) true,
       ParsedSection.mk "security" (v5 ++ fallbackNote) true,
       ParsedSection.mk "deployment" (v6 ++ fallbackNote) true] ∧
    (∀ pass2Sections : List ParsedSection,
      pass2Sections.filter (fun s => s.complete) = [] →
      resolvePass2Sections pass1Sections pass2Sections =
        (extractFallbackFromOutlines pass1Sections, true)) := by
  have hne : (jsTrimL sec.content.data).isEmpty = false := by
    cases hempty : (jsTrimL sec.content.data).isEmpty
    · rfl
    · rw [List.isEmpty_iff] at hempty
      rw [hempty] at hjson
      exact absurd hjson (by simp [jsonParse, parseJValue, parseJNumber])
  have hout : parseOutlines (jsTrimL sec.content.data) = JsonValue.obj
      [("architecture", JsonValue.str v1), ("data_model", JsonValue.str v2),
       ("api_contracts", JsonValue.str v3), ("user_flows", JsonValue.str v4),
       ("security", JsonValue.str v5), ("deployment", JsonValue.str v6)] := by
    rw [parseOutlines, hjson]
  have hmain : extractFallbackFromOutlines pass1Sections =
      [ParsedSection.mk "architecture" (v1 ++ fallbackNote) true,
       ParsedSection.mk "data_model" (v2 ++ fallbackNote) true,
       ParsedSection.mk "api_contracts" (v3 ++ fallbackNote) true,
       ParsedSection.mk "user_flows" (v4 ++ fallbackNote) true,
       ParsedSection.mk "security" (v5 ++ fallbackNote) true,
       ParsedSection.mk "deployment" (v6 ++ fallbackNote) true] := by
    rw [extractFallbackFromOutlines, hfind]
    simp only [hne, Bool.false_eq_true, if_false, hout]
    simp +decide [jsKeys, jsProp, PASS2_SECTIONS, jsTruthy, jsToString,
      h1, h2, h3, h4, h5, h6]
  refine ⟨hmain, ?_⟩
  intro pass2Sections hfilter
  rw [resolvePass2Sections, hfilter]
  simp [hmain]

/-- Concrete instance of amended C6: a six-key outline object with the
expected keys produces the six placeholder sections and is substituted for
an empty Pass 2. -/
theorem C6_outline_fallback_witness :
    extractFallbackFromOutlines
      [ParsedSection.mk "section_outlines"
        "\x7b\"architecture\":\"a1\",\"data_model\":\"a2\",\"api_contracts\":\"a3\",\"user_flows\":\"a4\",\"security\":\"a5\",\"deployment\":\"a6\"\x7d"
        true] =
      [ParsedSection.mk "architecture" ("a1" ++ fallbackNote) true,
       ParsedSection.mk "data_model" ("a2" ++ fallbackNote) true,
       ParsedSection.mk "api_contracts" ("a3" ++ fallbackNote) true,
       ParsedSection.mk "user_flows" ("a4" ++ fallbackNote) true,
       ParsedSection.mk "security" ("a5" ++ fallbackNote) true,
       ParsedSection.mk "deployment" ("a6" ++ fallbackNote) true] :=
  (C6_outline_fallback
    [ParsedSection.mk "section_outlines"
      "\x7b\"architecture\":\"a1\",\"data_model\":\"a2\",\"api_contracts\":\"a3\",\"user_flows\":\"a4\",\"security\":\"a5\",\"deployment\":\"a6\"\x7d"
      true]
    (ParsedSection.mk "section_outlines"
      "\x7b\"architecture\":\"a1\",\"data_model\":\"a2\",\"api_contracts\":\"a3\",\"user_flows\":\"a4\",\"security\":\"a5\",\"deployment\":\"a6\"\x7d"
      true)
    "a1" "a2" "a3" "a4" "a5" "a6"
    (by simp +decide [List.find?])
    (by simp +decide [jsTrimL, jsWS, jsonParse, parseJValue, parseJFields,
      parseJString, parseJStringBody, objInsert, jsonWS])
    rfl rfl rfl rfl rfl rfl).1

/-! ## Checkpoint loading (pipeline.ts, loadCheckpoint)

The file system is abstracted as the optional content of the checkpoint
file at the derived path; the console warnings become outcome tags. The
source casts the parsed JSON without validation, so a successful load
carries the raw parsed value. -/

inductive LoadResult where
  | resumed (data : JsonValue)
  | noCheckpoint
  | loadErrorWarn
  | versionWarn
  | questionWarn
deriving Repr

/-- The strict equality test data.version === 1 of the source (true only
for the number 1). -/
def isVersionOne : Option JsonValue → Bool
  | some (.num q) => q == 1
  | _ => false

/-- The strict equality test data.question === question of the source
(true only for an identical string). -/
def isQuestionEq (v : Option JsonValue) (question : String) : Bool :=
  match v with
  | some (.str s) => s == question
  | _ => false

/-- Shallow embedding of loadCheckpoint (pipeline.ts): null without warning
when no directory is configured or the file is absent; a caught parse error,
a version mismatch or a question mismatch warn and give null; otherwise the
parsed checkpoint is returned. -/
def loadCheckpoint (question : String) (checkpointDir : Option String)
    (fileContent : Option String) : LoadResult :=
  match checkpointDir with
  | none => LoadResult.noCheckpoint
  | some _ =>
    match fileContent with
    | none => LoadResult.noCheckpoint
    | some content =>
      match jsonParse content with
      | none => LoadResult.loadErrorWarn
      | some data =>
        if isVersionOne (jsProp data "version") then
          if isQuestionEq (jsProp data "question") question then LoadResult.resumed data
          else LoadResult.questionWarn
        else LoadResult.versionWarn

/-- Did loadCheckpoint resume (non-null in the source)? -/
def LoadResult.isResumed : LoadResult → Bool
  | .resumed _ => true
  | _ => false

/-- Did loadCheckpoint surface a warning? -/
def LoadResult.isWarn : LoadResult → Bool
  | .loadErrorWarn => true
  | .versionWarn => true
  | .questionWarn => true
  | _ => false

/-! ## Analysis of the aggregation: contribution lists

The imperative accumulation of calculateAggregateRankings is related to a
flat list of (agent, rank) contributions, from which the per-agent rank
lists, the key set and its insertion order are read off. -/

/-- Contributions of one evaluator: for the label at 0-based index i of its
parsed ranking, the mapped agent receives rank i + 1; unmapped labels give
nothing. -/
def contribsOf (labels : LabelMap) (res : Stage2Result) : List (String × ℕ) :=
  res.parsedRanking.enum.filterMap
    (fun il => (lookupLabel labels il.2).map (fun agent => (agent, il.1 + 1)))

/-- All contributions of a stage-2 result list, in traversal order. -/
def contribs (stage2 : List Stage2Result) (labels : LabelMap) : List (String × ℕ) :=
  stage2.flatMap (contribsOf labels)

/-- Ranks contributed to one agent, in traversal order. -/
def ranksIn (c : List (String × ℕ)) (a : String) : List ℕ :=
  (c.filter (fun p => p.1 == a)).map (fun p => p.2)

/-- Folding pushRank over a contribution list. -/
def foldPush (P : List (String × List ℕ)) (c : List (String × ℕ)) :
    List (String × List ℕ) :=
  c.foldl (fun P p => pushRank P p.1 p.2) P

/-- First occurrences of the keys of a contribution list that are not
already in seen, in order of first appearance (the insertion order of the
JS record). -/
def newKeys (seen : List String) : List (String × ℕ) → List String
  | [] => []
  | p :: c => if p.1 ∈ seen then newKeys seen c else p.1 :: newKeys (p.1 :: seen) c

theorem foldPush_append (P : List (String × List ℕ)) (c1 c2 : List (String × ℕ)) :
    foldPush P (c1 ++ c2) = foldPush (foldPush P c1) c2 := by
  simp [foldPush, List.foldl_append]

theorem inner_foldl_eq_foldPush (labels : LabelMap) (l : List (ℕ × String))
    (P : List (String × List ℕ)) :
    l.foldl
        (fun pos il =>
          match lookupLabel labels il.2 with
          | some agent => pushRank pos agent (il.1 + 1)
          | none => pos)
        P =
      foldPush P
        (l.filterMap (fun il => (lookupLabel labels il.2).map (fun agent => (agent, il.1 + 1)))) := by
  induction l generalizing P with
  | nil => simp [foldPush]
  | cons il l ih =>
    cases hl : lookupLabel labels il.2 with
    | none => simp [List.foldl_cons, hl, ih, foldPush]
    | some agent => simp [List.foldl_cons, hl, ih, foldPush]

theorem collectPositions_eq_foldPush (stage2 : List Stage2Result) (labels : LabelMap) :
    collectPositions stage2 labels = foldPush [] (contribs stage2 labels) := by
  suffices h : ∀ P, stage2.foldl
      (fun pos res =>
        res.parsedRanking.enum.foldl
          (fun pos il =>
            match lookupLabel labels il.2 with
            | some agent => pushRank pos agent (il.1 + 1)
            | none => pos)
          pos)
      P = foldPush P (contribs stage2 labels) by
    exact h []
  induction stage2 with
  | nil => intro P; simp [foldPush, contribs]
  | cons res s2 ih =>
    intro P
    rw [List.foldl_cons, ih, inner_foldl_eq_foldPush]
    rw [show contribs (res :: s2) labels = contribsOf labels res ++ contribs s2 labels by
      simp [contribs], foldPush_append]
    rfl

/-! ### pushRank on key-shaped association lists -/

theorem shaped_any_iff {keys : List String} {g : String → List ℕ} {b : String} :
    (keys.map (fun a => (a, g a))).any (fun p => p.1 == b) = true ↔ b ∈ keys := by
  simp [List.any_map, Function.comp_def]

theorem pushRank_shaped_mem {keys : List String} {g : String → List ℕ} {b : String}
    {r : ℕ} (hb : b ∈ keys) :
    pushRank (keys.map (fun a => (a, g a))) b r =
      keys.map (fun a => (a, g a ++ if a = b then [r] else [])) := by
  unfold pushRank
  rw [if_pos (shaped_any_iff.mpr hb), List.map_map]
  apply List.map_congr_left
  intro a ha
  by_cases hab : a = b
  · simp [Function.comp_def, hab]
  · simp [Function.comp_def, hab]

theorem pushRank_shaped_not_mem {keys : List String} {g : String → List ℕ} {b : String}
    {r : ℕ} (hb : b ∉ keys) :
    pushRank (keys.map (fun a => (a, g a))) b r =
      (keys ++ [b]).map (fun a => (a, if a = b then [r] else g a)) := by
  unfold pushRank
  rw [if_neg (fun h => hb (shaped_any_iff.mp h)), List.map_append]
  congr 1
  · apply List.map_congr_left
    intro a ha
    have hab : a ≠ b := fun h => hb (h ▸ ha)
    simp [hab]
  · simp

/-! ### newKeys: membership, nodup, congruence in seen -/

theorem newKeys_mem {a : String} :
    ∀ {c : List (String × ℕ)} {seen : List String},
      a ∈ newKeys seen c ↔ a ∉ seen ∧ ∃ r, (a, r) ∈ c := by
  intro c
  induction c with
  | nil => intro seen; simp [newKeys]
  | cons p c ih =>
    intro seen
    obtain ⟨b, r⟩ := p
    by_cases hb : b ∈ seen
    · rw [newKeys, if_pos hb, ih]
      constructor
      · rintro ⟨h1, q, h2⟩
        exact ⟨h1, q, List.mem_cons_of_mem _ h2⟩
      · rintro ⟨h1, q, h2⟩
        rcases List.mem_cons.mp h2 with h3 | h3
        · have hab : a = b := congrArg Prod.fst h3
          exact absurd (hab ▸ hb) h1
        · exact ⟨h1, q, h3⟩
    · rw [newKeys, if_neg hb, List.mem_cons, ih]
      constructor
      · rintro (rfl | ⟨h1, q, h2⟩)
        · exact ⟨hb, r, List.mem_cons_self _ _⟩
        · have h1' : a ∉ seen := fun hs => h1 (List.mem_cons_of_mem _ hs)
          exact ⟨h1', q, List.mem_cons_of_mem _ h2⟩
      · rintro ⟨h1, q, h2⟩
        rcases List.mem_cons.mp h2 with h3 | h3
        · exact Or.inl (congrArg Prod.fst h3)
        · by_cases hab : a = b
          · exact Or.inl hab
          · refine Or.inr ⟨?_, q, h3⟩
            intro hmem
            rcases List.mem_cons.mp hmem with h4 | h4
            · exact hab h4
            · exact h1 h4

theorem newKeys_nodup : ∀ (c : List (String × ℕ)) (seen : List String),
    (newKeys seen c).Nodup := by
  intro c
  induction c with
  | nil => intro seen; simp [newKeys]
  | cons p c ih =>
    intro seen
    by_cases hb : p.1 ∈ seen
    · simpa [newKeys, hb] using ih seen
    · simp only [newKeys, if_neg hb]
      refine List.Nodup.cons ?_ (ih (p.1 :: seen))
      intro hmem
      exact (newKeys_mem.mp hmem).1 (List.mem_cons_self _ _)

theorem newKeys_not_mem_seen {a : String} {c : List (String × ℕ)} {seen : List String}
    (h : a ∈ newKeys seen c) : a ∉ seen := (newKeys_mem.mp h).1

theorem newKeys_congr : ∀ {c : List (String × ℕ)} {s1 s2 : List String},
    (∀ x, x ∈ s1 ↔ x ∈ s2) → newKeys s1 c = newKeys s2 c := by
  intro c
  induction c with
  | nil => intro s1 s2 h; simp [newKeys]
  | cons p c ih =>
    intro s1 s2 h
    by_cases hb : p.1 ∈ s1
    · rw [newKeys, newKeys, if_pos hb, if_pos ((h p.1).mp hb), ih h]
    · rw [newKeys, newKeys, if_neg hb, if_neg (fun hx => hb ((h p.1).mpr hx))]
      congr 1
      apply ih
      intro x
      simp [h x]

theorem ranksIn_cons {b : String} {r : ℕ} {c : List (String × ℕ)} {a : String} :
    ranksIn ((b, r) :: c) a = (if b = a then [r] else []) ++ ranksIn c a := by
  by_cases hab : b = a <;> simp [ranksIn, hab]

/-! ### The shape of the accumulated positions -/

theorem foldPush_shaped :
    ∀ (c : List (String × ℕ)) (keys : List String) (g : String → List ℕ),
      keys.Nodup →
      foldPush (keys.map (fun a => (a, g a))) c =
        (keys ++ newKeys keys c).map
          (fun a => (a, (if a ∈ keys then g a else []) ++ ranksIn c a)) := by
  intro c
  induction c with
  | nil =>
    intro keys g hk
    simp only [foldPush, List.foldl_nil, newKeys, List.append_nil]
    apply List.map_congr_left
    intro a ha
    simp [ranksIn, ha]
  | cons p c ih =>
    intro keys g hk
    obtain ⟨b, r⟩ := p
    have hstep : foldPush (keys.map (fun a => (a, g a))) ((b, r) :: c) =
        foldPush (pushRank (keys.map (fun a => (a, g a))) b r) c := by
      simp [foldPush]
    rw [hstep]
    by_cases hb : b ∈ keys
    · rw [pushRank_shaped_mem hb, ih keys _ hk]
      have hnk : newKeys keys ((b, r) :: c) = newKeys keys c := by
        simp [newKeys, hb]
      rw [hnk]
      apply List.map_congr_left
      intro a ha
      by_cases hmem : a ∈ keys
      · by_cases hab : a = b
        · subst hab
          simp [hmem, ranksIn_cons]
        · have hba : b ≠ a := fun h => hab h.symm
          simp [hmem, hab, ranksIn_cons, hba]
      · have hab : a ≠ b := fun h => hmem (h ▸ hb)
        have hba : b ≠ a := fun h => hab h.symm
        simp [hmem, ranksIn_cons, hba]
    · have hnodup : (keys ++ [b]).Nodup := by
        refine List.Nodup.append hk (List.nodup_singleton b) ?_
        intro x hx hxb
        rw [List.mem_singleton] at hxb
        exact hb (hxb ▸ hx)
      rw [pushRank_shaped_not_mem hb, ih (keys ++ [b]) _ hnodup]
      have hnk : newKeys keys ((b, r) :: c) = b :: newKeys (b :: keys) c := by
        simp [newKeys, hb]
      have hcongr : newKeys (keys ++ [b]) c = newKeys (b :: keys) c :=
        newKeys_congr (fun x => by simp [or_comm])
      rw [hnk, hcongr]
      have hkeys : (keys ++ [b]) ++ newKeys (b :: keys) c =
          keys ++ (b :: newKeys (b :: keys) c) := by
        simp
      rw [hkeys]
      apply List.map_congr_left
      intro a ha
      by_cases hab : a = b
      · subst hab
        simp [hb, ranksIn_cons]
      · have hba : b ≠ a := fun h => hab h.symm
        by_cases hmem : a ∈ keys
        · simp [hmem, hab, ranksIn_cons, hba, hb]
        · have hnm : a ∉ keys ++ [b] := by simp [hmem, hab]
          simp [hmem, hnm, ranksIn_cons, hba]

/-- The accumulated positions record: keys in first-contribution order,
each carrying exactly the ranks contributed to it, in order. -/
theorem collectPositions_shape (stage2 : List Stage2Result) (labels : LabelMap) :
    collectPositions stage2 labels =
      (newKeys [] (contribs stage2 labels)).map
        (fun a => (a, ranksIn (contribs stage2 labels) a)) := by
  rw [collectPositions_eq_foldPush]
  have h := foldPush_shaped (contribs stage2 labels) [] (fun _ => []) List.nodup_nil
  simpa using h

/-! ### Sorting lemmas -/

theorem insertByRank_perm (x : AggregateRanking) (l : List AggregateRanking) :
    (insertByRank x l).Perm (x :: l) := by
  induction l with
  | nil => simp [insertByRank]
  | cons y ys ih =>
    rw [insertByRank]
    split
    · exact List.Perm.refl _
    · exact (List.Perm.cons y ih).trans (List.Perm.swap x y ys)

theorem sortByRank_perm (l : List AggregateRanking) : (sortByRank l).Perm l := by
  induction l with
  | nil => simp [sortByRank]
  | cons x xs ih => exact (insertByRank_perm x (sortByRank xs)).trans (ih.cons x)

theorem insertByRank_sorted {x : AggregateRanking} {l : List AggregateRanking}
    (h : l.Pairwise (fun u v => u.averageRank ≤ v.averageRank)) :
    (insertByRank x l).Pairwise (fun u v => u.averageRank ≤ v.averageRank) := by
  induction l with
  | nil => simp [insertByRank]
  | cons y ys ih =>
    rw [insertByRank]
    obtain ⟨h1, h2⟩ := List.pairwise_cons.mp h
    split
    · rename_i hxy
      refine List.Pairwise.cons ?_ h
      intro z hz
      rcases List.mem_cons.mp hz with rfl | hz'
      · exact hxy
      · exact le_trans hxy (h1 z hz')
    · rename_i hxy
      have hyx : y.averageRank ≤ x.averageRank := le_of_not_le hxy
      refine List.Pairwise.cons ?_ (ih h2)
      intro z hz
      rcases List.mem_cons.mp ((insertByRank_perm x ys).mem_iff.mp hz) with rfl | hz2
      · exact hyx
      · exact h1 z hz2

theorem sortByRank_sorted (l : List AggregateRanking) :
    (sortByRank l).Pairwise (fun u v => u.averageRank ≤ v.averageRank) := by
  induction l with
  | nil => simp [sortByRank]
  | cons x xs ih => exact insertByRank_sorted ih

/-! ### Aggregation membership characterizations -/

theorem ranksIn_ne_nil_iff {c : List (String × ℕ)} {a : String} :
    ranksIn c a ≠ [] ↔ ∃ r, (a, r) ∈ c := by
  simp only [ranksIn, ne_eq, List.map_eq_nil_iff, List.filter_eq_nil_iff]
  push_neg
  constructor
  · rintro ⟨⟨a', r⟩, hp, hbeq⟩
    have ha : a' = a := by simpa using hbeq
    subst ha
    exact ⟨r, hp⟩
  · rintro ⟨r, hr⟩
    exact ⟨(a, r), hr, by simp⟩

theorem mem_calculate_iff {stage2 : List Stage2Result} {labels : LabelMap}
    {e : AggregateRanking} :
    e ∈ calculateAggregateRankings stage2 labels ↔
      ∃ a ∈ newKeys [] (contribs stage2 labels),
        e = entryOf (a, ranksIn (contribs stage2 labels) a) := by
  rw [calculateAggregateRankings, collectPositions_shape,
    (sortByRank_perm _).mem_iff, List.map_map]
  simp only [List.mem_map, Function.comp_def]
  constructor
  · rintro ⟨a, ha, rfl⟩
    exact ⟨a, ha, rfl⟩
  · rintro ⟨a, ha, rfl⟩
    exact ⟨a, ha, rfl⟩

theorem contribs_mem_iff {stage2 : List Stage2Result} {labels : LabelMap}
    {a : String} {r : ℕ} :
    (a, r) ∈ contribs stage2 labels ↔
      ∃ res ∈ stage2, ∃ i lab, res.parsedRanking[i]? = some lab ∧
        lookupLabel labels lab = some a ∧ r = i + 1 := by
  simp only [contribs, contribsOf, List.mem_flatMap, List.mem_filterMap, Prod.exists,
    List.mk_mem_enum_iff_getElem?, Option.map_eq_some']
  constructor
  · rintro ⟨res, hres, i, lab, hget, agent, hlook, heq⟩
    obtain ⟨ha, hr⟩ := Prod.mk.injEq .. ▸ heq
    exact ⟨res, hres, i, lab, hget, by rw [ha] at hlook; exact hlook, hr.symm⟩
  · rintro ⟨res, hres, i, lab, hget, hlook, rfl⟩
    exact ⟨res, hres, i, lab, hget, a, hlook, rfl⟩

/-! ### The claimed scenario -/

/-- Label map of the documented scenario: three stage-1 responses. -/
def scenarioLabels : LabelMap :=
  [("Response A", "agentA"), ("Response B", "agentB"), ("Response C", "agentC")]

/-- Stage-2 rankings of the documented scenario: [B,A,C], [A,B,C], [B,C,A]. -/
def scenarioStage2 : List Stage2Result :=
  [⟨"evaluator1", "", ["Response B", "Response A", "Response C"]⟩,
   ⟨"evaluator2", "", ["Response A", "Response B", "Response C"]⟩,
   ⟨"evaluator3", "", ["Response B", "Response C", "Response A"]⟩]

theorem scenario_positions :
    collectPositions scenarioStage2 scenarioLabels =
      [("agentB", [1, 2, 1]), ("agentA", [2, 1, 3]), ("agentC", [3, 3, 2])] := by
  decide

theorem scenario_aggregate :
    calculateAggregateRankings scenarioStage2 scenarioLabels =
      [⟨"agentB", 133/100, 3⟩, ⟨"agentA", 2, 3⟩, ⟨"agentC", 267/100, 3⟩] := by
  have e1 : entryOf ("agentB", [1, 2, 1]) = ⟨"agentB", 133/100, 3⟩ := by
    simp only [entryOf]
    norm_num [round2, round_eq]
  have e2 : entryOf ("agentA", [2, 1, 3]) = ⟨"agentA", 2, 3⟩ := by
    simp only [entryOf]
    norm_num [round2, round_eq]
  have e3 : entryOf ("agentC", [3, 3, 2]) = ⟨"agentC", 267/100, 3⟩ := by
    simp only [entryOf]
    norm_num [round2, round_eq]
  rw [calculateAggregateRankings, scenario_positions]
  simp only [List.map_cons, List.map_nil, e1, e2, e3]
  norm_num [sortByRank, insertByRank]

/-! ### Contributions under the falsy guard -/

/-- Contributions of one evaluator with the falsy-agent guard. -/
def contribsOfFP (labels : LabelMap) (res : Stage2Result) : List (String × ℕ) :=
  res.parsedRanking.enum.filterMap
    (fun il =>
      match lookupLabel labels il.2 with
      | some agent => if agent = "" then none else some (agent, il.1 + 1)
      | none => none)

/-- All guarded contributions of a stage-2 result list. -/
def contribsFP (stage2 : List Stage2Result) (labels : LabelMap) : List (String × ℕ) :=
  stage2.flatMap (contribsOfFP labels)

theorem inner_foldl_eq_foldPushFP (labels : LabelMap) (l : List (ℕ × String))
    (P : List (String × List ℕ)) :
    l.foldl
        (fun pos il =>
          match lookupLabel labels il.2 with
          | some agent => if agent = "" then pos else pushRank pos agent (il.1 + 1)
          | none => pos)
        P =
      foldPush P
        (l.filterMap (fun il =>
          match lookupLabel labels il.2 with
          | some agent => if agent = "" then none else some (agent, il.1 + 1)
          | none => none)) := by
  induction l generalizing P with
  | nil => simp [foldPush]
  | cons il l ih =>
    cases hl : lookupLabel labels il.2 with
    | none => simp [List.foldl_cons, hl, ih, foldPush]
    | some agent =>
      by_cases hag : agent = ""
      · simp [List.foldl_cons, hl, hag, ih, foldPush]
      · simp [List.foldl_cons, hl, hag, ih, foldPush]

theorem collectPositionsFP_eq_foldPush (stage2 : List Stage2Result) (labels : LabelMap) :
    collectPositionsFP stage2 labels = foldPush [] (contribsFP stage2 labels) := by
  suffices h : ∀ P, stage2.foldl
      (fun pos res =>
        res.parsedRanking.enum.foldl
          (fun pos il =>
            match lookupLabel labels il.2 with
            | some agent => if agent = "" then pos else pushRank pos agent (il.1 + 1)
            | none => pos)
          pos)
      P = foldPush P (contribsFP stage2 labels) by
    exact h []
  induction stage2 with
  | nil => intro P; simp [foldPush, contribsFP]
  | cons res s2 ih =>
    intro P
    rw [List.foldl_cons, ih, inner_foldl_eq_foldPushFP]
    rw [show contribsFP (res :: s2) labels = contribsOfFP labels res ++ contribsFP s2 labels by
      simp [contribsFP], foldPush_append]
    rfl

theorem collectPositionsFP_shape (stage2 : List Stage2Result) (labels : LabelMap) :
    collectPositionsFP stage2 labels =
      (newKeys [] (contribsFP stage2 labels)).map
        (fun a => (a, ranksIn (contribsFP stage2 labels) a)) := by
  rw [collectPositionsFP_eq_foldPush]
  have h := foldPush_shaped (contribsFP stage2 labels) [] (fun _ => []) List.nodup_nil
  simpa using h

theorem mem_calculateFP_iff {stage2 : List Stage2Result} {labels : LabelMap}
    {e : AggregateRanking} :
    e ∈ calculateAggregateRankingsFP stage2 labels ↔
      ∃ a ∈ newKeys [] (contribsFP stage2 labels),
        e = entryOfFP (a, ranksIn (contribsFP stage2 labels) a) := by
  rw [calculateAggregateRankingsFP, collectPositionsFP_shape,
    (sortByRank_perm _).mem_iff, List.map_map]
  simp only [List.mem_map, Function.comp_def]
  constructor
  · rintro ⟨a, ha, rfl⟩
    exact ⟨a, ha, rfl⟩
  · rintro ⟨a, ha, rfl⟩
    exact ⟨a, ha, rfl⟩

theorem guard_eq_some {o : Option String} {i : ℕ} {a : String} {r : ℕ} :
    (match o with
      | some agent => if agent = "" then none else some (agent, i + 1)
      | none => none) = some (a, r) ↔
      o = some a ∧ a ≠ "" ∧ r = i + 1 := by
  cases o with
  | none => simp
  | some agent =>
    show (if agent = "" then none else some (agent, i + 1)) = some (a, r) ↔
      some agent = some a ∧ a ≠ "" ∧ r = i + 1
    by_cases hag : agent = ""
    · subst hag
      simp only [if_pos rfl]
      constructor
      · intro h
        exact absurd h (by simp)
      · rintro ⟨h1, h2, -⟩
        simp only [Option.some.injEq] at h1
        exact absurd h1.symm h2
    · rw [if_neg hag]
      simp only [Option.some.injEq, Prod.mk.injEq]
      constructor
      · rintro ⟨h1, h2⟩
        subst h1
        exact ⟨rfl, hag, h2.symm⟩
      · rintro ⟨h1, -, h2⟩
        exact ⟨h1, h2.symm⟩

theorem contribsFP_mem_iff {stage2 : List Stage2Result} {labels : LabelMap}
    {a : String} {r : ℕ} :
    (a, r) ∈ contribsFP stage2 labels ↔
      ∃ res ∈ stage2, ∃ i lab, res.parsedRanking[i]? = some lab ∧
        lookupLabel labels lab = some a ∧ a ≠ "" ∧ r = i + 1 := by
  simp only [contribsFP, contribsOfFP, List.mem_flatMap, List.mem_filterMap, Prod.exists,
    List.mk_mem_enum_iff_getElem?, guard_eq_some]

theorem scenario_positionsFP :
    collectPositionsFP scenarioStage2 scenarioLabels =
      [("agentB", [1, 2, 1]), ("agentA", [2, 1, 3]), ("agentC", [3, 3, 2])] := by
  decide

theorem scenario_aggregateFP :
    calculateAggregateRankingsFP scenarioStage2 scenarioLabels =
      [⟨"agentB", fl (133/100), 3⟩, ⟨"agentA", 2, 3⟩, ⟨"agentC", fl (267/100), 3⟩] := by
  rw [calculateAggregateRankingsFP, scenario_positionsFP]
  simp only [List.map_cons, List.map_nil, entryOfFP]
  rw [fpAverage_121, fpAverage_213, fpAverage_332, fl_133_100, fl_267_100]
  norm_num [sortByRank, insertByRank]

/-! ### The divergence input: 200 rankings of a single agent -/

/-- 199 evaluators rank Response A first; one ranks it second. -/
def ceStage2 : List Stage2Result :=
  List.replicate 199 ⟨"evaluator", "", ["Response A"]⟩ ++
    [⟨"evaluator200", "", ["Response B", "Response A"]⟩]

/-- Only Response A is mapped. -/
def ceLabels : LabelMap := [("Response A", "agentA")]

set_option maxRecDepth 20000 in
theorem ce_positions :
    collectPositionsFP ceStage2 ceLabels =
      [("agentA", List.replicate 199 1 ++ [2])] := by
  decide

set_option maxRecDepth 20000 in
theorem fpAverage_ce : fpAverage (List.replicate 199 1 ++ [2]) = 1 := by
  rw [fpAverage]
  rw [show ((List.replicate 199 1 ++ [2] : List ℕ).length) = 200 from by decide]
  rw [sumRanks_exact _ (by decide),
    show ((List.replicate 199 1 ++ [2] : List ℕ).sum) = 201 from by decide]
  rw [jsOfNat_eval (by norm_num)]
  rw [show jsDiv ((201 : ℕ) : ℚ) ((200 : ℕ) : ℚ) =
      4526117625507348 * (2:ℚ) ^ (-52 : ℤ) by
    rw [jsDiv]
    have h := fl_eval_down (q := ((201:ℕ):ℚ) / ((200:ℕ):ℚ)) (e := 0)
      (n := 4526117625507348)
      (by norm_num) (by norm_num) (by norm_num) (by norm_num)
    rw [h]
    norm_num]
  rw [show jsMul (4526117625507348 * (2:ℚ) ^ (-52 : ℤ)) 100 =
      7072058789855231 * (2:ℚ) ^ (-46 : ℤ) by
    rw [jsMul]
    have h := fl_eval_down (q := 4526117625507348 * (2:ℚ) ^ (-52 : ℤ) * 100)
      (e := 6) (n := 7072058789855231)
      (by norm_num) (by norm_num) (by norm_num) (by norm_num)
    rw [h]
    norm_num]
  rw [show jsMathRound (7072058789855231 * (2:ℚ) ^ (-46 : ℤ)) = (100 : ℚ) by
    rw [jsMathRound, round_eq]
    rw [show ⌊7072058789855231 * (2:ℚ) ^ (-46 : ℤ) + 1 / 2⌋ = (100 : ℤ) by
      rw [Int.floor_eq_iff]
      constructor
      · norm_num
      · norm_num]
    norm_num]
  rw [jsDiv, show ((100 : ℚ) / 100) = ((1 : ℕ) : ℚ) by norm_num,
    fl_natCast (by norm_num)]
  norm_num

set_option maxRecDepth 20000 in
theorem ce_result :
    calculateAggregateRankingsFP ceStage2 ceLabels = [⟨"agentA", 1, 200⟩] := by
  rw [calculateAggregateRankingsFP, ce_positions]
  simp only [List.map_cons, List.map_nil, entryOfFP]
  rw [fpAverage_ce, show ((List.replicate 199 1 ++ [2] : List ℕ).length) = 200 from by decide]
  simp [sortByRank, insertByRank]

theorem ce_guard :
    calculateAggregateRankingsFP [⟨"lone", "", ["Response B"]⟩]
      [("Response B", "")] = [] := by
  decide

/-! ## C1: the aggregation contract, refuted and amended -/

set_option maxRecDepth 20000 in
/-- Counterexample to C1 as stated. The claim predicts the arithmetic mean
rounded to two decimals; for one agent with ranks 1 from 199 evaluators and
2 from one more, that is round2 (201/200) = 1.01, but the binary64
evaluation of Math.round(((201/200))*100)/100 computes
(201/200)*100 = 100.49999999999999 and returns 1. The claim also predicts
that every mapped label contributes; a label mapped to the falsy empty
string is skipped by the `if (!agent) return` guard, so an input whose only
label maps to the empty string produces no entries at all. -/
theorem C1_claim_counterexample :
    calculateAggregateRankingsFP ceStage2 ceLabels = [⟨"agentA", 1, 200⟩] ∧
    round2 (((List.replicate 199 1 ++ [2] : List ℕ).sum : ℚ) /
      ((List.replicate 199 1 ++ [2] : List ℕ).length : ℚ)) = 101/100 ∧
    (1 : ℚ) ≠ 101/100 ∧
    calculateAggregateRankingsFP [⟨"lone", "", ["Response B"]⟩]
      [("Response B", "")] = [] := by
  refine ⟨ce_result, ?_, by norm_num, ce_guard⟩
  rw [show ((List.replicate 199 1 ++ [2] : List ℕ).sum) = 201 from by decide,
    show ((List.replicate 199 1 ++ [2] : List ℕ).length) = 200 from by decide]
  norm_num [round2, round_eq]

/-- C1 amended: in the bit-faithful model, the label at 1-indexed position
i of an evaluator's parsed ranking contributes rank i to the agent the
label maps to, provided that agent name is truthy (nonempty); unmapped
labels and labels mapped to the empty string are silently dropped (first
conjunct). Every returned entry carries the binary64 evaluation of
Math.round((sum/len)*100)/100 over its agent's contributed ranks and their
count (second conjunct); every agent with at least one contributed rank
appears (third conjunct); the result is sorted ascending by averageRank
(fourth conjunct); and on the documented scenario agent B's average is the
binary64 value of 1.33, agent A's is exactly 2, and B precedes A (final
conjunct). -/
theorem C1_aggregate_rankings_amended :
    (∀ stage2 labels (a : String) (r : ℕ),
        (a, r) ∈ contribsFP stage2 labels ↔
          ∃ res ∈ stage2, ∃ i lab, res.parsedRanking[i]? = some lab ∧
            lookupLabel labels lab = some a ∧ a ≠ "" ∧ r = i + 1) ∧
    (∀ stage2 labels e, e ∈ calculateAggregateRankingsFP stage2 labels →
        ranksIn (contribsFP stage2 labels) e.agent ≠ [] ∧
        e.rankingsCount = (ranksIn (contribsFP stage2 labels) e.agent).length ∧
        e.averageRank = fpAverage (ranksIn (contribsFP stage2 labels) e.agent)) ∧
    (∀ stage2 labels a, ranksIn (contribsFP stage2 labels) a ≠ [] →
        ∃ e ∈ calculateAggregateRankingsFP stage2 labels, e.agent = a) ∧
    (∀ stage2 labels,
        (calculateAggregateRankingsFP stage2 labels).Pairwise
          (fun x y => x.averageRank ≤ y.averageRank)) ∧
    calculateAggregateRankingsFP scenarioStage2 scenarioLabels =
      [⟨"agentB", fl (133/100), 3⟩, ⟨"agentA", 2, 3⟩, ⟨"agentC", fl (267/100), 3⟩] := by
  refine ⟨fun s l a r => contribsFP_mem_iff, ?_, ?_, ?_, scenario_aggregateFP⟩
  · intro stage2 labels e he
    obtain ⟨a, ha, rfl⟩ := mem_calculateFP_iff.mp he
    refine ⟨?_, rfl, rfl⟩
    exact ranksIn_ne_nil_iff.mpr (newKeys_mem.mp ha).2
  · intro stage2 labels a hne
    refine ⟨entryOfFP (a, ranksIn (contribsFP stage2 labels) a), ?_, rfl⟩
    exact mem_calculateFP_iff.mpr
      ⟨a, newKeys_mem.mpr ⟨by simp, ranksIn_ne_nil_iff.mp hne⟩, rfl⟩
  · intro stage2 labels
    exact sortByRank_sorted _

/-- Concrete instance of amended C1 at the documented scenario: agent B is
in the result, and the full output carries the binary64 averages. -/
theorem C1_aggregate_rankings_amended_witness :
    (∃ e ∈ calculateAggregateRankingsFP scenarioStage2 scenarioLabels,
        e.agent = "agentB") ∧
    calculateAggregateRankingsFP scenarioStage2 scenarioLabels =
      [⟨"agentB", fl (133/100), 3⟩, ⟨"agentA", 2, 3⟩, ⟨"agentC", fl (267/100), 3⟩] := by
  refine ⟨C1_aggregate_rankings_amended.2.2.1 scenarioStage2 scenarioLabels "agentB" ?_,
    C1_aggregate_rankings_amended.2.2.2.2⟩
  rw [show contribsFP scenarioStage2 scenarioLabels =
      [("agentB", 1), ("agentA", 2), ("agentC", 3),
       ("agentA", 1), ("agentB", 2), ("agentC", 3),
       ("agentB", 1), ("agentC", 2), ("agentA", 3)] from by decide]
  decide

/-! ## C9: aggregation is invariant under reordering of the input -/

/-- C9: permuting the stage-2 input list leaves the aggregate result set
unchanged: the output of calculateAggregateRankings on the permuted input
is a permutation of the original output (same agents, and the same
averageRank and rankingsCount for each agent, since entries carry all
three fields). -/
theorem C9_aggregate_perm_invariant (stage2 stage2' : List Stage2Result)
    (labels : LabelMap) (h : stage2.Perm stage2') :
    (calculateAggregateRankings stage2 labels).Perm
      (calculateAggregateRankings stage2' labels) := by
  have hc : (contribs stage2 labels).Perm (contribs stage2' labels) :=
    List.Perm.flatMap_right _ h
  have hranks : ∀ a, (ranksIn (contribs stage2 labels) a).Perm
      (ranksIn (contribs stage2' labels) a) :=
    fun a => (hc.filter _).map _
  have hentry : ∀ a, entryOf (a, ranksIn (contribs stage2 labels) a) =
      entryOf (a, ranksIn (contribs stage2' labels) a) := by
    intro a
    simp only [entryOf]
    rw [(hranks a).length_eq, (hranks a).sum_eq]
  have hK : (newKeys [] (contribs stage2 labels)).Perm
      (newKeys [] (contribs stage2' labels)) := by
    rw [List.perm_ext_iff_of_nodup (newKeys_nodup _ _) (newKeys_nodup _ _)]
    intro a
    rw [newKeys_mem, newKeys_mem]
    constructor
    · rintro ⟨h1, r, h2⟩
      exact ⟨h1, r, hc.mem_iff.mp h2⟩
    · rintro ⟨h1, r, h2⟩
      exact ⟨h1, r, hc.mem_iff.mpr h2⟩
  have h1 : (calculateAggregateRankings stage2 labels).Perm
      ((newKeys [] (contribs stage2 labels)).map
        (fun a => entryOf (a, ranksIn (contribs stage2 labels) a))) := by
    rw [calculateAggregateRankings, collectPositions_shape, List.map_map]
    exact sortByRank_perm _
  have h2 := hK.map (fun a => entryOf (a, ranksIn (contribs stage2 labels) a))
  have h3 : ((newKeys [] (contribs stage2' labels)).map
        (fun a => entryOf (a, ranksIn (contribs stage2 labels) a))) =
      ((newKeys [] (contribs stage2' labels)).map
        (fun a => entryOf (a, ranksIn (contribs stage2' labels) a))) :=
    List.map_congr_left (fun a _ => hentry a)
  have h4 : (calculateAggregateRankings stage2' labels).Perm
      ((newKeys [] (contribs stage2' labels)).map
        (fun a => entryOf (a, ranksIn (contribs stage2' labels) a))) := by
    rw [calculateAggregateRankings, collectPositions_shape, List.map_map]
    exact sortByRank_perm _
  rw [h3] at h2
  exact (h1.trans h2).trans h4.symm

/-- Concrete instance of C9: swapping the first two evaluators of the
documented scenario permutes nothing observable. -/
theorem C9_aggregate_perm_invariant_witness :
    (calculateAggregateRankings scenarioStage2 scenarioLabels).Perm
      (calculateAggregateRankings
        [⟨"evaluator2", "", ["Response A", "Response B", "Response C"]⟩,
         ⟨"evaluator1", "", ["Response B", "Response A", "Response C"]⟩,
         ⟨"evaluator3", "", ["Response B", "Response C", "Response A"]⟩]
        scenarioLabels) :=
  C9_aggregate_perm_invariant _ _ scenarioLabels
    (List.Perm.swap _ _ _)

/-! ## C4: terminal agent status is stable -/

/-- C4: once an agent execution's status reaches a terminal state
(completed, error, timeout or killed) it is not overwritten by a later
timeout or kill event: a timeout or kill request against a non-running (in
particular already-terminal) agent is a no-op, the timeout handler only
ever transitions an agent whose status is still running (and so does a
kill request), and a process close arriving after a timeout or kill
transition leaves the status unchanged; every transition is a pure
function of the snapshot, so the first transition wins deterministically. -/
theorem C4_terminal_status_stable (s : AgentSnapshot) (code : Option Int)
    (reason : AgentStatus) :
    (isTerminal s.status = true → fireTimeout s = s ∧ killRequest s reason = s) ∧
    (fireTimeout s ≠ s → s.status = AgentStatus.running) ∧
    (killRequest s reason ≠ s → s.status = AgentStatus.running) ∧
    (s.status = AgentStatus.timeout ∨ s.status = AgentStatus.killed →
      handleClose s code = s) := by
  obtain ⟨st, hp⟩ := s
  cases st <;> cases hp <;>
    simp [isTerminal, fireTimeout, killRequest, handleClose]

/-- Concrete instance of C4: a completed agent ignores a timeout, a timed
out agent ignores a kill request and a later process close. -/
theorem C4_terminal_status_stable_witness :
    fireTimeout ⟨AgentStatus.completed, true⟩ = ⟨AgentStatus.completed, true⟩ ∧
    killRequest ⟨AgentStatus.timeout, true⟩ AgentStatus.killed = ⟨AgentStatus.timeout, true⟩ ∧
    handleClose ⟨AgentStatus.timeout, true⟩ (some 0) = ⟨AgentStatus.timeout, true⟩ :=
  ⟨((C4_terminal_status_stable ⟨AgentStatus.completed, true⟩ (some 0) AgentStatus.killed).1
      (by decide)).1,
   ((C4_terminal_status_stable ⟨AgentStatus.timeout, true⟩ (some 0) AgentStatus.killed).1
      (by decide)).2,
   (C4_terminal_status_stable ⟨AgentStatus.timeout, true⟩ (some 0) AgentStatus.killed).2.2.2
      (Or.inl rfl)⟩

/-! ## C5: single-pass chairman fallback retries exactly once -/

/-- C5: in a single-pass chairman synthesis whose primary response matches
the failure sentinel (begins with the fixed failure prefix) and with a
fallback agent configured, exactly one additional chairman invocation is
made, with the fallback agent, and its result is kept with no further retry
regardless of the fallback's outcome; the resulting Stage3Result carries
the fallback agent's name. -/
theorem C5_chairman_fallback_once (outcome : String → CallOutcome) (chairman fb : String)
    (hfail : isChairmanFailure (runChairmanM outcome chairman).response = true) :
    (stage3WithFallback outcome chairman (some fb)).2 = [chairman, fb] ∧
    (stage3WithFallback outcome chairman (some fb)).1 = runChairmanM outcome fb ∧
    (stage3WithFallback outcome chairman (some fb)).1.agent = fb := by
  have hf : isChairmanFailure (chairmanResponseText (outcome chairman)) = true := hfail
  simp [stage3WithFallback, runChairmanM, hf]

/-- Outcome oracle for the C5 witness: the primary chairman times out, the
fallback also fails (showing no further retry is attempted). -/
def fallbackDemoOutcome : String → CallOutcome :=
  fun name =>
    if name = "primary" then ⟨AgentStatus.timeout, []⟩ else ⟨AgentStatus.error, []⟩

/-- Concrete instance of C5: with a timed-out primary chairman and a
fallback that itself fails, exactly the primary and the fallback run and
the result is attributed to the fallback. -/
theorem C5_chairman_fallback_once_witness :
    (stage3WithFallback fallbackDemoOutcome "primary" (some "backup")).2 =
      ["primary", "backup"] ∧
    (stage3WithFallback fallbackDemoOutcome "primary" (some "backup")).1 =
      runChairmanM fallbackDemoOutcome "backup" ∧
    (stage3WithFallback fallbackDemoOutcome "primary" (some "backup")).1.agent = "backup" :=
  C5_chairman_fallback_once fallbackDemoOutcome "primary" "backup" (by decide)

/-! ## C7: loadCheckpoint null paths -/

/-- C7: loadCheckpoint is a total function (never throws) and returns null
when the checkpoint file is absent, when the stored version field is not
the number 1, or when the stored question is not exactly the current
question; the version and question mismatches surface a warning and the
run proceeds without resuming. -/
theorem C7_loadCheckpoint_null_paths (question d : String) :
    (loadCheckpoint question (some d) none = LoadResult.noCheckpoint ∧
      LoadResult.noCheckpoint.isResumed = false) ∧
    (∀ content data, jsonParse content = some data →
      isVersionOne (jsProp data "version") = false →
      loadCheckpoint question (some d) (some content) = LoadResult.versionWarn ∧
        LoadResult.versionWarn.isResumed = false ∧ LoadResult.versionWarn.isWarn = true) ∧
    (∀ content data, jsonParse content = some data →
      isVersionOne (jsProp data "version") = true →
      isQuestionEq (jsProp data "question") question = false →
      loadCheckpoint question (some d) (some content) = LoadResult.questionWarn ∧
        LoadResult.questionWarn.isResumed = false ∧ LoadResult.questionWarn.isWarn = true) := by
  refine ⟨⟨rfl, rfl⟩, ?_, ?_⟩
  · intro content data h1 h2
    refine ⟨?_, rfl, rfl⟩
    simp [loadCheckpoint, h1, h2]
  · intro content data h1 h2 h3
    refine ⟨?_, rfl, rfl⟩
    simp [loadCheckpoint, h1, h2, h3]

/-- Concrete instance of C7: a checkpoint whose version is 2 is rejected
with a version warning; one with version 1 but a different stored question
is rejected with a question warning. -/
theorem C7_loadCheckpoint_null_paths_witness :
    loadCheckpoint "Q" (some "ckpt") (some "\x7b\"version\":2\x7d") =
      LoadResult.versionWarn ∧
    loadCheckpoint "Q" (some "ckpt")
        (some "\x7b\"version\":1,\"question\":\"other\"\x7d") =
      LoadResult.questionWarn := by
  constructor
  · exact ((C7_loadCheckpoint_null_paths "Q" "ckpt").2.1 _
      (JsonValue.obj [("version", JsonValue.num 2)])
      (by simp +decide [jsonParse, parseJValue, parseJFields, parseJString,
            parseJStringBody, parseJNumber, objInsert, digitsToNat, jsonWS])
      (by norm_num [isVersionOne, jsProp])).1
  · exact ((C7_loadCheckpoint_null_paths "Q" "ckpt").2.2 _
      (JsonValue.obj [("version", JsonValue.num 1), ("question", JsonValue.str "other")])
      (by simp +decide [jsonParse, parseJValue, parseJFields, parseJString,
            parseJStringBody, parseJNumber, objInsert, digitsToNat, jsonWS])
      (by norm_num [isVersionOne, jsProp])
      (by decide)).1

end Council
